import Mathlib

/-
  Verification of the blobber backup tool (github.com/Yoone/blobber).

  Shallow embedding of:
  - internal/retention: parseFilename, filterByName, Apply and the three
    retention rules (the current union-based Apply with pendingBackups, and
    the earlier switch-based Apply revision still referenced by the
    orchestrator, embedded as ApplyOld);
  - internal/backup: the backup filename construction of Run, the codec
    dispatch of newCompressWriter, and newDecompressReader from restore.go;
  - internal/config: applyDefaults and Validate;
  - internal/orchestrator: the step/event trace of runSingleBackup.

  Machine integers (Go int/int64) are modelled as Int.  Go time.Time values
  that appear in backup filenames are modelled by the DT record of their
  formatted fields; time.Time comparison (Before/After) on such values
  coincides with lexicographic comparison of the fields, modelled by DT.key.
-/

namespace Blobber

/-- A backup timestamp as embedded in filenames: the fields of the Go
format string 20060102_150405. -/
structure DT where
  y : Nat
  mo : Nat
  d : Nat
  h : Nat
  mi : Nat
  s : Nat
deriving DecidableEq, Repr

/-- Chronological comparison key: for field values in their valid ranges this
orders DT values exactly as Go time.Time comparison orders the parsed times. -/
def DT.key (t : DT) : Nat :=
  ((((t.y * 100 + t.mo) * 100 + t.d) * 100 + t.h) * 100 + t.mi) * 100 + t.s

/-- Gregorian leap year, as in Go's time package. -/
def isLeap (y : Nat) : Bool :=
  y % 4 == 0 && (y % 100 != 0 || y % 400 == 0)

/-- Days in a month, as validated by Go time.Parse. -/
def daysInMonth (y mo : Nat) : Nat :=
  if mo = 2 then (if isLeap y then 29 else 28)
  else if mo = 4 ∨ mo = 6 ∨ mo = 9 ∨ mo = 11 then 30
  else 31

/-- Field ranges accepted by Go time.Parse for the 20060102_150405 layout. -/
def DT.valid (t : DT) : Bool :=
  t.y ≤ 9999 && 1 ≤ t.mo && t.mo ≤ 12 && 1 ≤ t.d && t.d ≤ daysInMonth t.y t.mo
    && t.h ≤ 23 && t.mi ≤ 59 && t.s ≤ 59

/-- ASCII decimal digit test (the regex class backslash-d). -/
def isDig (c : Char) : Bool :=
  48 ≤ c.toNat && c.toNat ≤ 57

/-- Numeric value of a digit character. -/
def digVal (c : Char) : Nat := c.toNat - 48

/-- Digit character for a value below ten. -/
def digChar (n : Nat) : Char :=
  if n = 0 then '0' else if n = 1 then '1' else if n = 2 then '2'
  else if n = 3 then '3' else if n = 4 then '4' else if n = 5 then '5'
  else if n = 6 then '6' else if n = 7 then '7' else if n = 8 then '8' else '9'

/-- Value of a digit string, most significant first. -/
def numOf (cs : List Char) : Nat :=
  cs.foldl (fun a c => a * 10 + digVal c) 0

/-- Two-digit zero padded rendering, as Go Format does for 01, 02, 15, 04, 05. -/
def pad2 (n : Nat) : List Char := [digChar (n / 10 % 10), digChar (n % 10)]

/-- Four-digit zero padded rendering, as Go Format does for 2006 on years up
to 9999. -/
def pad4 (n : Nat) : List Char :=
  [digChar (n / 1000 % 10), digChar (n / 100 % 10), digChar (n / 10 % 10), digChar (n % 10)]

/-- The characters Format(20060102_150405) produces for a timestamp. -/
def fmtDT (t : DT) : List Char :=
  pad4 t.y ++ pad2 t.mo ++ pad2 t.d ++ '_' :: (pad2 t.h ++ pad2 t.mi ++ pad2 t.s)

/-- Attempt to read the tail of a filename as the regex tail
underscore, 8 digits, underscore, 6 digits, dot, nonempty extension
(the regex classes (backslash-d{8}_backslash-d{6}) and (.+), where the dot
class excludes newline).  Returns the timestamp fields and the extension. -/
def splitTs (r : List Char) : Option (DT × List Char) :=
  match r with
  | '_' :: a1 :: a2 :: a3 :: a4 :: a5 :: a6 :: a7 :: a8 ::
      '_' :: b1 :: b2 :: b3 :: b4 :: b5 :: b6 :: '.' :: ext =>
    if [a1, a2, a3, a4, a5, a6, a7, a8].all isDig ∧ [b1, b2, b3, b4, b5, b6].all isDig
        ∧ ext ≠ [] ∧ ∀ x ∈ ext, x ≠ '\n' then
      some (⟨numOf [a1, a2, a3, a4], numOf [a5, a6], numOf [a7, a8],
             numOf [b1, b2], numOf [b3, b4], numOf [b5, b6]⟩, ext)
    else none
  | _ => none

/-- Greedy match of the leading (.+) group of filenamePattern: the longest
nonempty newline-free prefix whose remainder has the timestamp/extension
shape.  Mirrors the backtracking of the greedy regex group. -/
def findName : List Char → Option (List Char × DT × List Char)
  | [] => none
  | c :: cs =>
    if c = '\n' then none
    else
      match findName cs with
      | some (pre, t, ext) => some (c :: pre, t, ext)
      | none =>
        match splitTs cs with
        | some (t, ext) => some ([c], t, ext)
        | none => none

/-- Go filepath.Base: strip trailing slashes, keep the part after the last
slash; empty input gives a dot, all-slash input gives a slash. -/
def goBase (cs : List Char) : List Char :=
  if cs.isEmpty then ['.']
  else
    let t := (cs.reverse.dropWhile (fun c => c == '/')).reverse
    if t.isEmpty then ['/']
    else (t.reverse.takeWhile (fun c => !(c == '/'))).reverse

/-- retention.parseFilename on the characters of a filename: take the base,
match the greedy pattern, then validate the timestamp as time.Parse does
(a shape match with an out-of-range timestamp is a failed parse overall,
since the Go code does not retry other splits). -/
def parseFilenameCh (cs : List Char) : Option (List Char × DT) :=
  match findName (goBase cs) with
  | some (pre, t, _) => if t.valid then some (pre, t) else none
  | none => none

/-- retention.parseFilename. -/
def parseFilename (s : String) : Option (String × DT) :=
  match parseFilenameCh s.data with
  | some (pre, t) => some (⟨pre⟩, t)
  | none => none

/-! ## Retention engine (internal/retention) -/

/-- storage.RemoteFile.  ModTime is opaque to retention; kept as a Nat. -/
structure RemoteFile where
  name : String
  size : Int
  modTime : Nat
deriving DecidableEq, Repr

/-- retention.backupFile: a RemoteFile together with its parsed timestamp. -/
structure BackupFile where
  file : RemoteFile
  ts : DT
deriving DecidableEq, Repr

/-- Lower-case an ASCII letter.  Models strings.EqualFold restricted to
ASCII input (EqualFold is Unicode simple folding; database names and
filenames here are ASCII). -/
def lowAscii (c : Char) : Char :=
  if 65 ≤ c.toNat ∧ c.toNat ≤ 90 then Char.ofNat (c.toNat + 32) else c

/-- strings.EqualFold on the characters of two names. -/
def eqFold (a b : List Char) : Bool :=
  a.map lowAscii == b.map lowAscii

/-- The filter stage of filterByName, before sorting: keep the files whose
name parses and matches dbName case-insensitively, tagged with their
timestamps, in input order. -/
def rawFilter (files : List RemoteFile) (dbName : String) : List BackupFile :=
  files.filterMap fun f =>
    match parseFilenameCh f.name.data with
    | some (n, t) => if eqFold n dbName.data then some ⟨f, t⟩ else none
    | none => none

/-- The comparison used to sort filtered files newest first.  Go sorts with
less(i,j) = ts i After ts j; on the short slices involved Go's sort runs
insertion sort, which keeps ties in input order, so the sort is modelled as
a stable insertion sort on this total relation. -/
def tsGe (a b : BackupFile) : Prop := b.ts.key ≤ a.ts.key

instance : DecidableRel tsGe := fun a b => Nat.decLe b.ts.key a.ts.key

instance : IsTotal BackupFile tsGe := ⟨fun a b => Nat.le_total b.ts.key a.ts.key⟩

instance : IsTrans BackupFile tsGe := ⟨fun _ _ _ h1 h2 => Nat.le_trans h2 h1⟩

/-- The sort stage of filterByName: newest first. -/
def sortTs (l : List BackupFile) : List BackupFile := List.insertionSort tsGe l

/-- retention.filterByName: filter to this database's backups and sort
newest first by embedded timestamp. -/
def filterByName (files : List RemoteFile) (dbName : String) : List BackupFile :=
  sortTs (rawFilter files dbName)

/-- config.Retention. -/
structure Retention where
  keepLast : Int
  keepDays : Int
  maxSizeMB : Int
deriving DecidableEq, Repr

/-- retention.applyKeepLast. -/
def applyKeepLast (files : List BackupFile) (keepLast : Int) : List BackupFile :=
  if (files.length : Int) ≤ keepLast then [] else files.drop keepLast.toNat

/-- Hinnant day number of a civil date (used to model Go AddDate, which
normalizes through exact calendar day arithmetic).  All divisions below act
on nonnegative operands. -/
def daysFromCivil (y m d : Int) : Int :=
  let y2 := if m ≤ 2 then y - 1 else y
  let era := (if 0 ≤ y2 then y2 else y2 - 399) / 400
  let yoe := y2 - era * 400
  let mp := (m + 9) % 12
  let doy := (153 * mp + 2) / 5 + d - 1
  let doe := yoe * 365 + yoe / 4 - yoe / 100 + doy
  era * 146097 + doe - 719468

/-- Hinnant civil date of a day number. -/
def civilFromDays (z0 : Int) : Int × Int × Int :=
  let z := z0 + 719468
  let era := (if 0 ≤ z then z else z - 146096) / 146097
  let doe := z - era * 146097
  let yoe := (doe - doe / 1460 + doe / 36524 - doe / 146096) / 365
  let doy := doe - (365 * yoe + yoe / 4 - yoe / 100)
  let mp := (5 * doy + 2) / 153
  let d := doy - (153 * mp + 2) / 5 + 1
  let m := if mp < 10 then mp + 3 else mp - 9
  (yoe + era * 400 + (if m ≤ 2 then 1 else 0), m, d)

/-- now.AddDate(0, 0, delta): shift a timestamp by delta calendar days. -/
def addDaysDT (t : DT) (delta : Int) : DT :=
  let z := daysFromCivil (t.y : Int) (t.mo : Int) (t.d : Int) + delta
  let c := civilFromDays z
  ⟨c.1.toNat, c.2.1.toNat, c.2.2.toNat, t.h, t.mi, t.s⟩

/-- retention.applyKeepDays; now is the value of time.Now() at the call. -/
def applyKeepDays (files : List BackupFile) (keepDays : Int) (now : DT) : List BackupFile :=
  let cutoff := addDaysDT now (-keepDays)
  files.filter fun f => f.ts.key < cutoff.key

/-- The accumulation loop of retention.applyMaxSize. -/
def maxSizeGo (maxBytes : Int) : List BackupFile → Int → List BackupFile
  | [], _ => []
  | f :: r, total =>
    let t2 := total + f.file.size
    if t2 > maxBytes then f :: maxSizeGo maxBytes r t2 else maxSizeGo maxBytes r t2

/-- retention.applyMaxSize. -/
def applyMaxSize (files : List BackupFile) (maxSizeMB : Int) : List BackupFile :=
  maxSizeGo (maxSizeMB * 1024 * 1024) files 0

/-- One insertion into the toDeleteMap, keyed by filename (Go map write). -/
def insertMap : List (String × BackupFile) → String → BackupFile → List (String × BackupFile)
  | [], k, v => [(k, v)]
  | (k0, v0) :: r, k, v =>
    if k0 = k then (k0, v) :: r else (k0, v0) :: insertMap r k v

/-- Insert a rule's deletion list into the toDeleteMap. -/
def insertAll (m : List (String × BackupFile)) (fs : List BackupFile) :
    List (String × BackupFile) :=
  fs.foldl (fun acc f => insertMap acc f.file.name f) m

/-- retention.Apply (current revision, src/unnamed/part_003): evaluate every
enabled rule on the filtered sorted list and union the results through a
map keyed by filename.  The Go map's iteration order for the final slice is
unspecified; insertion order is used here, and claims about Apply are
stated on the resulting set of names.  now models time.Now(). -/
def Apply (files : List RemoteFile) (dbName : String) (ret : Retention)
    (pendingBackups : Int) (now : DT) : List RemoteFile :=
  if files.isEmpty then [] else
  let filtered := filterByName files dbName
  if filtered.isEmpty then [] else
  let m0 : List (String × BackupFile) := []
  let m1 := if ret.keepLast > 0 then
      insertAll m0 (applyKeepLast filtered (max (ret.keepLast - pendingBackups) 0))
    else m0
  let m2 := if ret.keepDays > 0 then
      insertAll m1 (applyKeepDays filtered ret.keepDays now)
    else m1
  let m3 := if ret.maxSizeMB > 0 then
      insertAll m2 (applyMaxSize filtered ret.maxSizeMB)
    else m2
  m3.map fun p => p.2.file

/-- retention.Apply (earlier revision, second document of
src/unnamed/part_002, the signature the orchestrator and the list command
compile against): only the first enabled rule in the order KeepLast,
KeepDays, MaxSizeMB is evaluated. -/
def ApplyOld (files : List RemoteFile) (dbName : String) (ret : Retention)
    (now : DT) : List RemoteFile :=
  if files.isEmpty then [] else
  let filtered := filterByName files dbName
  if filtered.isEmpty then [] else
  let toDelete :=
    if ret.keepLast > 0 then applyKeepLast filtered ret.keepLast
    else if ret.keepDays > 0 then applyKeepDays filtered ret.keepDays now
    else if ret.maxSizeMB > 0 then applyMaxSize filtered ret.maxSizeMB
    else []
  toDelete.map fun f => f.file

/-- The set of filenames in a deletion list. -/
def namesOf (l : List RemoteFile) : Finset String :=
  (l.map fun f => f.name).toFinset

/-- The set of filenames in a rule's deletion list. -/
def bnamesOf (l : List BackupFile) : Finset String :=
  (l.map fun f => f.file.name).toFinset

/-! ## Codec dispatch (backup.newCompressWriter / backup.newDecompressReader)

The gzip, zstd and xz streams and the zip container are produced by
external libraries; their byte formats are modelled symbolically: a stored
artifact is its payload tagged with the encoding applied, and each decoder
inverts exactly its own tag (the library contract) and fails on any other
input, as the real readers fail on a wrong magic number.  The zip container
keeps its entry structure, which the repository code does inspect. -/

/-- The bytes of an artifact as written to disk, symbolically. -/
inductive FileData where
  | plain (d : List Nat)
  | gzData (d : List Nat)
  | zstData (d : List Nat)
  | xzData (d : List Nat)
  | zipArchive (entries : List (String × List Nat))
deriving DecidableEq, Repr

/-- backup.newCompressWriter: dispatch on the compression name; the zip case
creates a single entry named after the inner filename.  The returned writer
is modelled by the artifact produced once all payload bytes are written and
the cleanup (Close) function has run. -/
def newCompressWriter (compression : String) (filename : String) (payload : List Nat) :
    Except String FileData :=
  if compression = "none" ∨ compression = "" then .ok (.plain payload)
  else if compression = "gz" then .ok (.gzData payload)
  else if compression = "zstd" then .ok (.zstData payload)
  else if compression = "xz" then .ok (.xzData payload)
  else if compression = "zip" then .ok (.zipArchive [(filename, payload)])
  else .error ("unknown compression type: " ++ compression)

/-- strings.HasSuffix. -/
def hasSuffix (s suffix2 : String) : Bool :=
  suffix2.data.isSuffixOf s.data

/-- backup.newDecompressReader: dispatch on the trailing extension of the
path, in the order of the Go switch; zip requires a nonempty archive and
reads only the first entry; without a recognized extension the raw bytes
are returned. -/
def newDecompressReader (path : String) (file : FileData) : Except String (List Nat) :=
  if hasSuffix path ".gz" then
    match file with
    | .gzData d => .ok d
    | _ => .error "creating gzip reader"
  else if hasSuffix path ".zst" then
    match file with
    | .zstData d => .ok d
    | _ => .error "creating zstd reader"
  else if hasSuffix path ".xz" then
    match file with
    | .xzData d => .ok d
    | _ => .error "creating xz reader"
  else if hasSuffix path ".zip" then
    match file with
    | .zipArchive [] => .error "zip file is empty"
    | .zipArchive (e :: _) => .ok e.2
    | _ => .error "opening zip file"
  else
    match file with
    | .plain d => .ok d
    | _ => .error "raw stream of an encoded artifact is not modelled"

/-! ## Configuration (internal/config) -/

/-- config.Database.  The Go field Type is named dtype here (type is a Lean
keyword). -/
structure Database where
  dtype : String
  path : String
  host : String
  port : Int
  user : String
  password : String
  database : String
  dest : String
  compression : String
  retention : Retention
deriving DecidableEq, Repr

/-- The Databases map of config.Config, as an association list. -/
abbrev Config := List (String × Database)

/-- config.applyDefaults: default compression none; default ports for mysql
and postgres. -/
def applyDefaults (c : Config) : Config :=
  c.map fun nd =>
    (nd.1,
      { nd.2 with
        compression := if nd.2.compression = "" then "none" else nd.2.compression,
        port :=
          if nd.2.port = 0 then
            if nd.2.dtype = "mysql" then 3306
            else if nd.2.dtype = "postgres" then 5432
            else nd.2.port
          else nd.2.port })

/-- validNamePattern: one or more of letters, digits, dash, underscore. -/
def validNameChar (c : Char) : Bool :=
  (97 ≤ c.toNat && c.toNat ≤ 122) || (65 ≤ c.toNat && c.toNat ≤ 90)
    || (48 ≤ c.toNat && c.toNat ≤ 57) || c == '_' || c == '-'

/-- validNamePattern.MatchString. -/
def validName (n : String) : Bool :=
  !n.data.isEmpty && n.data.all validNameChar

/-- The compression names accepted by Validate. -/
def validCompression (c : String) : Bool :=
  c == "none" || c == "gz" || c == "zstd" || c == "xz" || c == "zip"

/-- The trailing checks of Validate shared by all database kinds. -/
def validateCommon (db : Database) : Option String :=
  if db.dest = "" then some "dest is required"
  else if validCompression db.compression then none
  else some "compression must be one of: none, gz, zstd, xz, zip"

/-- The per-database checks of config.Validate. -/
def validateDB (n : String) (db : Database) : Option String :=
  if !validName n then some "name must contain only letters, digits, dashes, and underscores"
  else if db.dtype = "file" then
    if db.path = "" then some "path is required for file type" else validateCommon db
  else if db.dtype = "mysql" ∨ db.dtype = "postgres" then
    if db.host = "" then some "host is required"
    else if db.user = "" then some "user is required"
    else if db.database = "" then some "database name is required"
    else validateCommon db
  else some "unknown type"

/-- The loop of config.Validate, returning the first error in list order
(the Go map iteration order is unspecified; only the no-error case is used
by the theorems). -/
def firstErr : Config → Option String
  | [] => none
  | nd :: r =>
    match validateDB nd.1 nd.2 with
    | some e => some e
    | none => firstErr r

/-- config.Validate. -/
def Validate (c : Config) : Option String :=
  match c with
  | [] => some "no databases configured"
  | _ => firstErr c

/-! ## Backup filename construction (backup.Run) -/

/-- The compressionExt map of the backup package. -/
def compressionExt : List (String × String) :=
  [("none", ""), ("gz", ".gz"), ("zstd", ".zst"), ("xz", ".xz"), ("zip", ".zip")]

/-- Go filepath.Ext: the suffix starting at the final dot of the final path
element, empty if the final element has no dot. -/
def revUpToDot : List Char → Option (List Char)
  | [] => none
  | c :: r => if c = '.' then some [c] else (revUpToDot r).map fun l => c :: l

/-- Go filepath.Ext on a character list. -/
def goExt (cs : List Char) : List Char :=
  match revUpToDot (cs.reverse.takeWhile fun c => !(c == '/')) with
  | some l => l.reverse
  | none => []

/-- The extension chosen by backup.Run before compression: .sql for server
databases, the path's extension (or .bak) for file databases. -/
def runExt (dtype path : String) : List Char :=
  if dtype = "file" then
    let e := goExt path.data
    if e.isEmpty then ".bak".data else e
  else ".sql".data

/-- The compression extension appended by backup.Run; a name missing from
compressionExt appends nothing. -/
def compExtOf (compression : String) : List Char :=
  match compressionExt.lookup compression with
  | some e => e.data
  | none => []

/-- The backup filename produced by backup.Run:
name_YYYYMMDD_HHMMSS.ext[.compExt]. -/
def runFilename (name : String) (t : DT) (dtype path compression : String) : List Char :=
  name.data ++ '_' :: fmtDT t ++ runExt dtype path ++ compExtOf compression

/-! ## Backup pipeline (orchestrator.runSingleBackup)

One database's pipeline run is modelled as the sequence of its observable
actions: the progress events it sends and the storage calls it makes, in
program order.  The collaborators (dump, upload, list) are oracles fixed in
an environment; message texts irrelevant to the claims are simplified. -/

/-- orchestrator.BackupStep. -/
inductive Step where
  | dumping
  | uploading
  | retention
deriving DecidableEq, Repr

/-- orchestrator.BackupProgress for one database (the DBName field is the
pipeline's own database throughout and is omitted). -/
structure ProgressEv where
  step : Step
  message : String
  done : Bool
  error : Option String
  skipped : Bool
deriving DecidableEq, Repr

/-- An observable action of a pipeline run. -/
inductive Action where
  | prog (e : ProgressEv)
  | uploadCall (ok : Bool)
  | listCall
  | deleteCall (name : String)
deriving DecidableEq, Repr

/-- backup.Result as the orchestrator uses it. -/
structure DumpRes where
  filename : String
  path : String
  size : Int
deriving DecidableEq, Repr

/-- The collaborator oracles of one pipeline run. -/
structure OrchEnv where
  dump : Except String DumpRes
  upload : Except String Unit
  list : Except String (List RemoteFile)
  now : DT

/-- orchestrator.BackupOptions. -/
structure BackupOptions where
  dryRun : Bool
  skipRetention : Bool
deriving DecidableEq, Repr

/-- orchestrator.runSingleBackup: the action trace of one database's backup
pipeline.  Retention deletion uses the Apply revision the orchestrator file
compiles against (ApplyOld); Delete errors are counted but do not stop the
loop, so every selected file produces one deleteCall. -/
def runSingleBackup (env : OrchEnv) (opts : BackupOptions) (name : String)
    (ret : Retention) : List Action :=
  let startDump := Action.prog ⟨.dumping, "", false, none, false⟩
  match env.dump with
  | .error err => [startDump, .prog ⟨.dumping, "", true, some err, false⟩]
  | .ok dres =>
    let dumpEvs := [startDump, .prog ⟨.dumping, "Dumped " ++ dres.filename, false, none, false⟩]
    if opts.dryRun then
      dumpEvs ++
        [.prog ⟨.uploading, "Upload skipped (dry-run), file at " ++ dres.path, false, none, true⟩,
         .prog ⟨.retention, "Retention skipped (dry-run)", true, none, true⟩]
    else
      match env.upload with
      | .error err =>
        dumpEvs ++
          [.prog ⟨.uploading, "", false, none, false⟩, .uploadCall false,
           .prog ⟨.uploading, "", true, some err, false⟩]
      | .ok _ =>
        let upEvs := [Action.prog ⟨.uploading, "", false, none, false⟩, .uploadCall true,
          .prog ⟨.uploading, "Saved", false, none, false⟩]
        let retEvs :=
          if opts.skipRetention then
            [Action.prog ⟨.retention, "Skipped (--skip-retention)", true, none, true⟩]
          else if ret.keepLast > 0 ∨ ret.keepDays > 0 ∨ ret.maxSizeMB > 0 then
            match env.list with
            | .error err =>
              [Action.prog ⟨.retention, "", false, none, false⟩, .listCall,
               .prog ⟨.retention, "", true, some err, false⟩]
            | .ok files =>
              let toDelete := ApplyOld files name ret env.now
              if toDelete.isEmpty then
                [Action.prog ⟨.retention, "", false, none, false⟩, .listCall,
                 .prog ⟨.retention, "No old backups to delete", true, none, true⟩]
              else
                Action.prog ⟨.retention, "", false, none, false⟩ :: .listCall ::
                  (toDelete.map fun f => Action.deleteCall f.name)
                  ++ [.prog ⟨.retention, "Deleted old backup(s)", true, none, false⟩]
          else
            [Action.prog ⟨.retention, "No retention policy", true, none, true⟩]
        dumpEvs ++ upEvs ++ retEvs

/-- The progress events of a trace, in order. -/
def progressEvents : List Action → List ProgressEv
  | [] => []
  | .prog e :: r => e :: progressEvents r
  | _ :: r => progressEvents r

/-- Pipeline position of a step. -/
def stepIdx : Step → Nat
  | .dumping => 0
  | .uploading => 1
  | .retention => 2

/-- Collapse consecutive equal steps (the per-step event groups). -/
def squeeze : List Step → List Step
  | [] => []
  | [s] => [s]
  | s :: s2 :: r => if s = s2 then squeeze (s2 :: r) else s :: squeeze (s2 :: r)

/-- Scan a trace, requiring every deleteCall to be preceded by a successful
uploadCall. -/
def delsAfterUpload : Bool → List Action → Bool
  | _, [] => true
  | seen, .deleteCall _ :: r => seen && delsAfterUpload seen r
  | seen, .uploadCall ok :: r => delsAfterUpload (seen || ok) r
  | seen, _ :: r => delsAfterUpload seen r

/-! ## Specification-side definitions used to state the claims -/

/-- The position of the first file, scanning newest first, at which the
running size total strictly exceeds the remaining byte budget; the list
length if the budget is never exceeded. -/
def firstExceed : List BackupFile → Int → Nat
  | [], _ => 0
  | f :: r, rem => if rem < f.file.size then 0 else 1 + firstExceed r (rem - f.file.size)

/-- The key set of the toDeleteMap. -/
def keysOf (m : List (String × BackupFile)) : Finset String :=
  (m.map Prod.fst).toFinset

/-- Four five-megabyte backups of one database, newest first (the MaxSizeMB
scenario of the spec). -/
def szFiles : List RemoteFile :=
  [⟨"mydb_20240115_150000.sql.gz", 5 * 1024 * 1024, 0⟩,
   ⟨"mydb_20240115_140000.sql.gz", 5 * 1024 * 1024, 0⟩,
   ⟨"mydb_20240115_130000.sql.gz", 5 * 1024 * 1024, 0⟩,
   ⟨"mydb_20240115_120000.sql.gz", 5 * 1024 * 1024, 0⟩]

/-- Five backups of one database, newest first (the KeepLast scenario of
the spec). -/
def klFiles : List RemoteFile :=
  [⟨"mydb_20240105_000000.sql.gz", 100, 0⟩, ⟨"mydb_20240104_000000.sql.gz", 100, 0⟩,
   ⟨"mydb_20240103_000000.sql.gz", 100, 0⟩, ⟨"mydb_20240102_000000.sql.gz", 100, 0⟩,
   ⟨"mydb_20240101_000000.sql.gz", 100, 0⟩]

/-- Replace a file's storage modification time, keeping name and size. -/
def remap (g : RemoteFile → Nat) (f : RemoteFile) : RemoteFile :=
  ⟨f.name, f.size, g f⟩

/-- remap lifted to parsed backup files. -/
def bremap (g : RemoteFile → Nat) (bf : BackupFile) : BackupFile :=
  ⟨remap g bf.file, bf.ts⟩

/-- remap lifted to toDeleteMap entries. -/
def qremap (g : RemoteFile → Nat) (q : String × BackupFile) : String × BackupFile :=
  (q.1, bremap g q.2)

/-- Two backups of the same database with identical embedded timestamps
(an .sql.gz and an .sql.xz artifact). -/
def cxA : RemoteFile := ⟨"mydb_20240115_100000.sql.gz", 1, 0⟩

/-- See cxA. -/
def cxB : RemoteFile := ⟨"mydb_20240115_100000.sql.xz", 1, 0⟩

/-- A fixed clock value for retention runs in witnesses. -/
def cxNow : DT := ⟨2024, 1, 16, 0, 0, 0⟩

/-- No proper suffix of cs starts a timestamp/extension token (the shape
splitTs accepts).  Holds for every standard artifact extension;
an extension violating it defeats the greedy name match. -/
def tokenFree : List Char → Bool
  | [] => true
  | _ :: r => (splitTs r).isNone && tokenFree r

/-- A file-kind database whose path extension itself contains a timestamp
token; accepted by config.Validate. -/
def cxDb : Database :=
  ⟨"file", "/data/weird.x_20230101_000000", "", 0, "", "", "", "local:/backups", "gz",
   ⟨0, 0, 0⟩⟩

/-- A concrete one-database configuration as written by a user (compression
omitted). -/
def cfgW : Config :=
  [("db1", ⟨"file", "/data/app.db", "", 0, "", "", "", "local:/backups", "", ⟨3, 0, 0⟩⟩)]

/-- The same database after applyDefaults. -/
def dbW : Database :=
  ⟨"file", "/data/app.db", "", 0, "", "", "", "local:/backups", "none", ⟨3, 0, 0⟩⟩

/-- A pipeline environment where every collaborator succeeds. -/
def envW : OrchEnv :=
  ⟨.ok ⟨"mydb_20240115_143022.sql.gz", "/tmp/blobber-x/mydb_20240115_143022.sql.gz", 100⟩,
   .ok (), .ok klFiles, cxNow⟩

/-! ## Helper lemmas on suffix dispatch -/

lemma suffix_excl {p s1 s2 : List Char} (h2 : s2 <:+ p)
    (hno1 : ¬ s1 <:+ s2) (hno2 : ¬ s2 <:+ s1) : ¬ s1 <:+ p := fun h1 =>
  (List.suffix_or_suffix_of_suffix h1 h2).elim hno1 hno2

lemma hasSuffix_append_self (base suf : String) : hasSuffix (base ++ suf) suf = true := by
  simp only [hasSuffix, String.data_append]
  exact List.isSuffixOf_iff_suffix.mpr (List.suffix_append _ _)

lemma hasSuffix_append_of_excl (base : String) {s1 s2 : String}
    (hno1 : ¬ s1.data <:+ s2.data) (hno2 : ¬ s2.data <:+ s1.data) :
    hasSuffix (base ++ s2) s1 = false := by
  simp only [hasSuffix, String.data_append]
  rw [Bool.eq_false_iff]
  intro h
  exact suffix_excl (List.suffix_append _ _) hno1 hno2 (List.isSuffixOf_iff_suffix.mp h)

lemma hasSuffix_false_of_suffix {p : String} {s1 s2 : String}
    (h2 : hasSuffix p s2 = true) (hno1 : ¬ s1.data <:+ s2.data)
    (hno2 : ¬ s2.data <:+ s1.data) : hasSuffix p s1 = false := by
  simp only [hasSuffix] at h2 ⊢
  rw [Bool.eq_false_iff]
  intro h
  exact suffix_excl (List.isSuffixOf_iff_suffix.mp h2) hno1 hno2
    (List.isSuffixOf_iff_suffix.mp h)

/-! ## Claims about the codec dispatch -/

/-- C5: for every supported codec, writing a payload through the codec's
compress writer (with its finalize function invoked) and reading the
artifact back through the decompress reader selected by the file's
trailing extension yields exactly the original payload, for every payload
(empty, small or large) and every base filename carrying no codec
extension of its own. -/
theorem codec_roundtrip (c : String) (hc : c ∈ ["none", "gz", "zstd", "xz", "zip"])
    (payload : List Nat) (base inner : String)
    (h1 : hasSuffix base ".gz" = false) (h2 : hasSuffix base ".zst" = false)
    (h3 : hasSuffix base ".xz" = false) (h4 : hasSuffix base ".zip" = false) :
    ∃ fd, newCompressWriter c inner payload = .ok fd
      ∧ newDecompressReader (base ++ ((compressionExt.lookup c).getD "")) fd = .ok payload := by
  simp only [List.mem_cons, List.not_mem_nil, or_false] at hc
  rcases hc with rfl | rfl | rfl | rfl | rfl
  · refine ⟨.plain payload, by simp [newCompressWriter], ?_⟩
    have hpath : base ++ ((compressionExt.lookup "none").getD "") = base := by
      simp [compressionExt, List.lookup]
    rw [hpath]
    simp [newDecompressReader, h1, h2, h3, h4]
  · refine ⟨.gzData payload, by simp [newCompressWriter], ?_⟩
    have : (compressionExt.lookup "gz").getD "" = ".gz" := by simp [compressionExt, List.lookup]
    rw [this]
    simp [newDecompressReader, hasSuffix_append_self]
  · refine ⟨.zstData payload, by simp [newCompressWriter], ?_⟩
    have : (compressionExt.lookup "zstd").getD "" = ".zst" := by
      simp [compressionExt, List.lookup]
    rw [this]
    have e1 : hasSuffix (base ++ ".zst") ".gz" = false :=
      hasSuffix_append_of_excl base (by decide) (by decide)
    simp [newDecompressReader, e1, hasSuffix_append_self]
  · refine ⟨.xzData payload, by simp [newCompressWriter], ?_⟩
    have : (compressionExt.lookup "xz").getD "" = ".xz" := by simp [compressionExt, List.lookup]
    rw [this]
    have e1 : hasSuffix (base ++ ".xz") ".gz" = false :=
      hasSuffix_append_of_excl base (by decide) (by decide)
    have e2 : hasSuffix (base ++ ".xz") ".zst" = false :=
      hasSuffix_append_of_excl base (by decide) (by decide)
    simp [newDecompressReader, e1, e2, hasSuffix_append_self]
  · refine ⟨.zipArchive [(inner, payload)], by simp [newCompressWriter], ?_⟩
    have : (compressionExt.lookup "zip").getD "" = ".zip" := by
      simp [compressionExt, List.lookup]
    rw [this]
    have e1 : hasSuffix (base ++ ".zip") ".gz" = false :=
      hasSuffix_append_of_excl base (by decide) (by decide)
    have e2 : hasSuffix (base ++ ".zip") ".zst" = false :=
      hasSuffix_append_of_excl base (by decide) (by decide)
    have e3 : hasSuffix (base ++ ".zip") ".xz" = false :=
      hasSuffix_append_of_excl base (by decide) (by decide)
    simp [newDecompressReader, e1, e2, e3, hasSuffix_append_self]

/-- C5 witness: the zip codec round-trips a concrete payload for a concrete
base filename. -/
theorem codec_roundtrip_witness :
    "zip" ∈ ["none", "gz", "zstd", "xz", "zip"]
    ∧ hasSuffix "db.sql" ".gz" = false ∧ hasSuffix "db.sql" ".zst" = false
    ∧ hasSuffix "db.sql" ".xz" = false ∧ hasSuffix "db.sql" ".zip" = false
    ∧ ∃ fd, newCompressWriter "zip" "inner.sql" [7, 0, 255] = .ok fd
      ∧ newDecompressReader ("db.sql" ++ ((compressionExt.lookup "zip").getD "")) fd
          = .ok [7, 0, 255] :=
  ⟨by decide, by decide, by decide, by decide, by decide,
   codec_roundtrip "zip" (by decide) [7, 0, 255] "db.sql" "inner.sql"
     (by decide) (by decide) (by decide) (by decide)⟩

/-- C7: opening a zip artifact for restore fails with an explicit error on
an archive with zero entries; on an archive with at least one entry it
yields exactly the first entry's bytes, whatever the remaining entries
are. -/
theorem zip_restore (path : String) (h : hasSuffix path ".zip" = true) :
    newDecompressReader path (.zipArchive []) = .error "zip file is empty"
    ∧ ∀ (e : String × List Nat) (rest : List (String × List Nat)),
        newDecompressReader path (.zipArchive (e :: rest)) = .ok e.2 := by
  have e1 : hasSuffix path ".gz" = false :=
    hasSuffix_false_of_suffix h (by decide) (by decide)
  have e2 : hasSuffix path ".zst" = false :=
    hasSuffix_false_of_suffix h (by decide) (by decide)
  have e3 : hasSuffix path ".xz" = false :=
    hasSuffix_false_of_suffix h (by decide) (by decide)
  constructor
  · simp [newDecompressReader, e1, e2, e3, h]
  · intro e rest
    simp [newDecompressReader, e1, e2, e3, h]

/-- C7 witness: a concrete zip path with an empty and a two-entry
archive. -/
theorem zip_restore_witness :
    hasSuffix "a.zip" ".zip" = true
    ∧ newDecompressReader "a.zip" (.zipArchive []) = .error "zip file is empty"
    ∧ newDecompressReader "a.zip" (.zipArchive [("x", [1, 2]), ("y", [3])]) = .ok [1, 2] :=
  ⟨by decide, (zip_restore "a.zip" (by decide)).1,
   (zip_restore "a.zip" (by decide)).2 ("x", [1, 2]) [("y", [3])]⟩

/-! ## Claim about configuration validation (C10) -/

lemma firstErr_none {l : Config} (h : firstErr l = none) :
    ∀ nd ∈ l, validateDB nd.1 nd.2 = none := by
  induction l with
  | nil => simp
  | cons a r ih =>
    intro nd hm
    simp only [firstErr] at h
    rcases hx : validateDB a.1 a.2 with _ | e
    · rw [hx] at h
      rcases List.mem_cons.mp hm with rfl | hr
      · exact hx
      · exact ih h nd hr
    · rw [hx] at h
      simp at h

lemma validCompression_of_common {db : Database} (h : validateCommon db = none) :
    validCompression db.compression = true := by
  unfold validateCommon at h
  split at h
  · simp at h
  · split at h
    · assumption
    · simp at h

lemma validCompression_of_validateDB {n : String} {db : Database}
    (h : validateDB n db = none) : validCompression db.compression = true := by
  unfold validateDB at h
  split at h
  · simp at h
  · split at h
    · split at h
      · simp at h
      · exact validCompression_of_common h
    · split at h
      · split at h
        · simp at h
        · split at h
          · simp at h
          · split at h
            · simp at h
            · exact validCompression_of_common h
      · simp at h

/-- C10: a configuration accepted by config.Load (Validate succeeds after
applyDefaults) gives every database a Compression out of none, gz, zstd,
xz, zip; consequently the compressionExt lookup in backup.Run always hits
and the unknown-compression branch of newCompressWriter is unreachable. -/
theorem config_compression_closed (cfg : Config)
    (h : Validate (applyDefaults cfg) = none) :
    ∀ nd ∈ applyDefaults cfg,
      nd.2.compression ∈ ["none", "gz", "zstd", "xz", "zip"]
      ∧ (compressionExt.lookup nd.2.compression).isSome = true
      ∧ ∀ (fname : String) (payload : List Nat),
          (newCompressWriter nd.2.compression fname payload).isOk = true := by
  intro nd hm
  have hfe : firstErr (applyDefaults cfg) = none := by
    unfold Validate at h
    split at h
    · simp at h
    · exact h
  have hvc := validCompression_of_validateDB (firstErr_none hfe nd hm)
  unfold validCompression at hvc
  simp only [Bool.or_eq_true, beq_iff_eq] at hvc
  rcases hvc with (((hc | hc) | hc) | hc) | hc <;> rw [hc] <;>
    exact ⟨by decide, by decide,
      fun fname payload => by simp [newCompressWriter, Except.isOk, Except.toBool]⟩

/-- C10 witness: a concrete one-database file configuration whose omitted
compression defaults to none. -/
theorem config_compression_closed_witness :
    Validate (applyDefaults cfgW) = none
    ∧ ("db1", dbW) ∈ applyDefaults cfgW
    ∧ dbW.compression ∈ ["none", "gz", "zstd", "xz", "zip"]
    ∧ (compressionExt.lookup dbW.compression).isSome = true
    ∧ ((newCompressWriter dbW.compression "f" []).isOk = true) := by
  refine ⟨by decide, by decide, ?_⟩
  have := config_compression_closed cfgW (by decide) ("db1", dbW) (by decide)
  exact ⟨this.1, this.2.1, this.2.2 "f" []⟩

/-! ## Claims about the backup pipeline (C2, C4) -/

lemma delsAfterUpload_deletes (fs : List RemoteFile) (r : List Action) :
    delsAfterUpload true (fs.map (fun f => Action.deleteCall f.name) ++ r)
      = delsAfterUpload true r := by
  induction fs with
  | nil => rfl
  | cons f t ih => simpa [delsAfterUpload] using ih

lemma progressEvents_deletes (fs : List RemoteFile) (r : List Action) :
    progressEvents (fs.map (fun f => Action.deleteCall f.name) ++ r) = progressEvents r := by
  induction fs with
  | nil => rfl
  | cons f t ih => simpa [progressEvents] using ih

/-- C2: in a pipeline run, every storage Delete call is preceded in the
trace by a successful storage Upload call; in particular no retention
deletion can happen when the upload failed, was skipped (dry-run), or has
not yet completed. -/
theorem deletes_only_after_upload (env : OrchEnv) (opts : BackupOptions)
    (name : String) (ret : Retention) :
    delsAfterUpload false (runSingleBackup env opts name ret) = true := by
  obtain ⟨dump, upload, lst, now⟩ := env
  obtain ⟨dry, skip⟩ := opts
  cases dump with
  | error err => rfl
  | ok dres =>
    cases dry with
    | true => rfl
    | false =>
      cases upload with
      | error err => rfl
      | ok u =>
        cases skip with
        | true => rfl
        | false =>
          simp only [runSingleBackup, Bool.false_eq_true, if_false]
          split
          · split
            · rfl
            · split
              · rfl
              · simp [delsAfterUpload, delsAfterUpload_deletes]
          · rfl

/-- C4: the progress events of one database's pipeline run are grouped in
the step order Dumping, Uploading, Retention; only the final event is
marked done; no event before the final one carries an error (a failing
step's error event ends the trace, with no events for later steps); and in
an error-free run all three steps appear, in order, with the Retention
step always present. -/
theorem pipeline_event_order (env : OrchEnv) (opts : BackupOptions)
    (name : String) (ret : Retention) :
    (progressEvents (runSingleBackup env opts name ret)).Pairwise
        (fun a b => stepIdx a.step ≤ stepIdx b.step)
    ∧ progressEvents (runSingleBackup env opts name ret) ≠ []
    ∧ (∀ x ∈ (progressEvents (runSingleBackup env opts name ret)).dropLast,
        x.done = false ∧ x.error = none)
    ∧ (∀ e ∈ (progressEvents (runSingleBackup env opts name ret)).getLast?, e.done = true)
    ∧ ((∀ e ∈ progressEvents (runSingleBackup env opts name ret), e.error = none) →
        squeeze ((progressEvents (runSingleBackup env opts name ret)).map fun e => e.step)
          = [.dumping, .uploading, .retention]) := by
  obtain ⟨dump, upload, lst, now⟩ := env
  obtain ⟨dry, skip⟩ := opts
  cases dump with
  | error err =>
    refine ⟨?_, ?_, ?_, ?_, ?_⟩ <;>
      simp [runSingleBackup, progressEvents, List.pairwise_cons, stepIdx, squeeze]
  | ok dres =>
    cases dry with
    | true =>
      refine ⟨?_, ?_, ?_, ?_, ?_⟩ <;>
        simp [runSingleBackup, progressEvents, List.pairwise_cons, stepIdx, squeeze]
    | false =>
      cases upload with
      | error err =>
        refine ⟨?_, ?_, ?_, ?_, ?_⟩ <;>
          simp [runSingleBackup, progressEvents, List.pairwise_cons, stepIdx, squeeze]
      | ok u =>
        cases skip with
        | true =>
          refine ⟨?_, ?_, ?_, ?_, ?_⟩ <;>
            simp [runSingleBackup, progressEvents, List.pairwise_cons, stepIdx, squeeze]
        | false =>
          simp only [runSingleBackup, Bool.false_eq_true, if_false]
          split
          · split
            · refine ⟨?_, ?_, ?_, ?_, ?_⟩ <;>
                simp [progressEvents, List.pairwise_cons, stepIdx, squeeze]
            · split
              · refine ⟨?_, ?_, ?_, ?_, ?_⟩ <;>
                  simp [progressEvents, List.pairwise_cons, stepIdx, squeeze]
              · refine ⟨?_, ?_, ?_, ?_, ?_⟩ <;>
                  simp [progressEvents, progressEvents_deletes, List.pairwise_cons,
                    stepIdx, squeeze]
          · refine ⟨?_, ?_, ?_, ?_, ?_⟩ <;>
              simp [progressEvents, List.pairwise_cons, stepIdx, squeeze]

/-! ## Claim about the MaxSizeMB rule (C8) -/

lemma maxSizeGo_all (maxB : Int) (files : List BackupFile) (total : Int)
    (h : maxB < total) (hs : ∀ f ∈ files, 0 ≤ f.file.size) :
    maxSizeGo maxB files total = files := by
  induction files generalizing total with
  | nil => rfl
  | cons f r ih =>
    have hf : 0 ≤ f.file.size := hs f (by simp)
    have hr : ∀ g ∈ r, 0 ≤ g.file.size := fun g hg => hs g (by simp [hg])
    simp only [maxSizeGo]
    rw [if_pos (by omega)]
    rw [ih (total + f.file.size) (by omega) hr]

lemma maxSizeGo_drop (maxB : Int) (files : List BackupFile) (total : Int)
    (h : total ≤ maxB) (hs : ∀ f ∈ files, 0 ≤ f.file.size) :
    maxSizeGo maxB files total = files.drop (firstExceed files (maxB - total)) := by
  induction files generalizing total with
  | nil => rfl
  | cons f r ih =>
    have hf : 0 ≤ f.file.size := hs f (by simp)
    have hr : ∀ g ∈ r, 0 ≤ g.file.size := fun g hg => hs g (by simp [hg])
    simp only [maxSizeGo, firstExceed]
    by_cases hx : total + f.file.size > maxB
    · rw [if_pos hx, if_pos (by omega), List.drop_zero,
        maxSizeGo_all maxB r (total + f.file.size) (by omega) hr]
    · rw [if_neg hx, if_neg (by omega), ih (total + f.file.size) (by omega) hr]
      have : maxB - total - f.file.size = maxB - (total + f.file.size) := by omega
      rw [← this, Nat.add_comm 1 _]
      rfl

/-- C8: on a list of matching files with nonnegative sizes (scanned newest
first), applyMaxSize marks exactly the suffix starting at the first
position where the running size total strictly exceeds the byte cap: that
file and every older file. -/
theorem maxsize_marks_suffix (files : List BackupFile) (m : Int) (hm : 0 < m)
    (hs : ∀ f ∈ files, 0 ≤ f.file.size) :
    applyMaxSize files m = files.drop (firstExceed files (m * 1024 * 1024)) := by
  unfold applyMaxSize
  have h0 : (0 : Int) ≤ m * 1024 * 1024 := by nlinarith
  have := maxSizeGo_drop (m * 1024 * 1024) files 0 h0 hs
  simpa using this

/-- C8 witness: four 5 MB files with a 12 MB cap mark exactly the two
oldest. -/
theorem maxsize_marks_suffix_witness :
    (0 : Int) < 12 ∧ (∀ f ∈ filterByName szFiles "mydb", 0 ≤ f.file.size)
    ∧ applyMaxSize (filterByName szFiles "mydb") 12
        = (filterByName szFiles "mydb").drop (firstExceed (filterByName szFiles "mydb")
            (12 * 1024 * 1024))
    ∧ (applyMaxSize (filterByName szFiles "mydb") 12).map (fun f => f.file.name)
        = ["mydb_20240115_130000.sql.gz", "mydb_20240115_120000.sql.gz"] :=
  ⟨by decide, by decide,
   maxsize_marks_suffix (filterByName szFiles "mydb") 12 (by decide) (by decide),
   by decide⟩

/-! ## Claim about Apply as a union of rules (C1) -/

lemma bnamesOf_cons (f : BackupFile) (t : List BackupFile) :
    bnamesOf (f :: t) = insert f.file.name (bnamesOf t) := by
  simp [bnamesOf]

lemma keysOf_cons (a : String × BackupFile) (r : List (String × BackupFile)) :
    keysOf (a :: r) = insert a.1 (keysOf r) := by
  simp [keysOf]

lemma keysOf_insertMap (m : List (String × BackupFile)) (k : String) (v : BackupFile) :
    keysOf (insertMap m k v) = insert k (keysOf m) := by
  induction m with
  | nil => simp [insertMap, keysOf]
  | cons a r ih =>
    obtain ⟨k0, v0⟩ := a
    by_cases h : k0 = k
    · subst h
      simp [insertMap, keysOf]
    · simp only [insertMap, if_neg h]
      rw [keysOf_cons, ih, keysOf_cons]
      exact Finset.Insert.comm k0 k (keysOf r)

lemma keysOf_insertAll (m : List (String × BackupFile)) (fs : List BackupFile) :
    keysOf (insertAll m fs) = keysOf m ∪ bnamesOf fs := by
  induction fs generalizing m with
  | nil => simp [insertAll, bnamesOf, keysOf]
  | cons f t ih =>
    show keysOf (insertAll (insertMap m f.file.name f) t) = _
    rw [ih, keysOf_insertMap, bnamesOf_cons]
    rw [Finset.insert_union, Finset.union_insert]

lemma insertMap_inv (m : List (String × BackupFile)) (k : String) (v : BackupFile)
    (hm : ∀ q ∈ m, q.2.file.name = q.1) (hv : v.file.name = k) :
    ∀ q ∈ insertMap m k v, q.2.file.name = q.1 := by
  induction m with
  | nil =>
    intro q hq
    simp only [insertMap, List.mem_singleton] at hq
    rw [hq]
    exact hv
  | cons a r ih =>
    obtain ⟨k0, v0⟩ := a
    intro q hq
    by_cases h : k0 = k
    · simp only [insertMap, if_pos h, List.mem_cons] at hq
      rcases hq with h2 | h2
      · rw [h2]
        simpa [h] using hv
      · exact hm q (List.mem_cons_of_mem _ h2)
    · simp only [insertMap, if_neg h, List.mem_cons] at hq
      rcases hq with h2 | h2
      · rw [h2]
        exact hm (k0, v0) (List.mem_cons_self _ _)
      · exact ih (fun q hq => hm q (List.mem_cons_of_mem _ hq)) q h2

lemma insertAll_inv (fs : List BackupFile) (m : List (String × BackupFile))
    (hm : ∀ q ∈ m, q.2.file.name = q.1) :
    ∀ q ∈ insertAll m fs, q.2.file.name = q.1 := by
  induction fs generalizing m with
  | nil => exact hm
  | cons f t ih =>
    exact ih (insertMap m f.file.name f) (insertMap_inv m f.file.name f hm rfl)

lemma namesOf_map_values (m : List (String × BackupFile))
    (hinv : ∀ q ∈ m, q.2.file.name = q.1) :
    namesOf (m.map fun q => q.2.file) = keysOf m := by
  induction m with
  | nil => rfl
  | cons a r ih =>
    simp only [namesOf, keysOf, List.map_cons, List.map_map, List.toFinset_cons]
    rw [hinv a (List.mem_cons_self _ _)]
    congr 1
    have := ih fun q hq => hinv q (List.mem_cons_of_mem _ hq)
    simpa [namesOf, keysOf, List.map_map] using this

lemma keysOf_condInsert (c : Prop) [Decidable c] (m : List (String × BackupFile))
    (fs : List BackupFile) :
    keysOf (if c then insertAll m fs else m)
      = keysOf m ∪ (if c then bnamesOf fs else ∅) := by
  by_cases h : c <;> simp [h, keysOf_insertAll]

lemma applyKeepLast_nil (e : Int) : applyKeepLast [] e = [] := by
  unfold applyKeepLast
  split <;> simp

/-- C1: the deletion set of the current retention Apply is exactly the
union, deduplicated by filename, of the deletion sets of the enabled rules
evaluated independently on the filtered sorted file list; with no rule
enabled the result is empty. -/
theorem retention_apply_union (files : List RemoteFile) (db : String) (ret : Retention)
    (p : Int) (now : DT) :
    namesOf (Apply files db ret p now) =
      (if ret.keepLast > 0 then
          bnamesOf (applyKeepLast (filterByName files db) (max (ret.keepLast - p) 0))
        else ∅)
      ∪ (if ret.keepDays > 0 then
          bnamesOf (applyKeepDays (filterByName files db) ret.keepDays now)
        else ∅)
      ∪ (if ret.maxSizeMB > 0 then
          bnamesOf (applyMaxSize (filterByName files db) ret.maxSizeMB)
        else ∅)
    ∧ (ret.keepLast ≤ 0 → ret.keepDays ≤ 0 → ret.maxSizeMB ≤ 0 →
        Apply files db ret p now = []) := by
  constructor
  · simp only [Apply]
    by_cases hfe : files.isEmpty
    · have hfil : filterByName files db = [] := by
        have : files = [] := by
          cases files
          · rfl
          · simp at hfe
        subst this
        rfl
      rw [if_pos hfe, hfil]
      simp [namesOf, applyKeepLast_nil, applyKeepDays, applyMaxSize, maxSizeGo, bnamesOf]
    · rw [if_neg hfe]
      by_cases hfil : (filterByName files db).isEmpty
      · have hnil : filterByName files db = [] := by
          cases h : filterByName files db
          · rfl
          · rw [h] at hfil
            simp at hfil
        rw [if_pos hfil, hnil]
        simp [namesOf, applyKeepLast_nil, applyKeepDays, applyMaxSize, maxSizeGo, bnamesOf]
      · rw [if_neg hfil]
        have hinv3 : ∀ q ∈
            (if ret.maxSizeMB > 0 then
              insertAll
                (if ret.keepDays > 0 then
                  insertAll
                    (if ret.keepLast > 0 then
                      insertAll [] (applyKeepLast (filterByName files db)
                        (max (ret.keepLast - p) 0))
                    else [])
                    (applyKeepDays (filterByName files db) ret.keepDays now)
                else
                  (if ret.keepLast > 0 then
                    insertAll [] (applyKeepLast (filterByName files db)
                      (max (ret.keepLast - p) 0))
                  else []))
                (applyMaxSize (filterByName files db) ret.maxSizeMB)
            else
              (if ret.keepDays > 0 then
                insertAll
                  (if ret.keepLast > 0 then
                    insertAll [] (applyKeepLast (filterByName files db)
                      (max (ret.keepLast - p) 0))
                  else [])
                  (applyKeepDays (filterByName files db) ret.keepDays now)
              else
                (if ret.keepLast > 0 then
                  insertAll [] (applyKeepLast (filterByName files db)
                    (max (ret.keepLast - p) 0))
                else []))),
            q.2.file.name = q.1 := by
          have h1 : ∀ q ∈ (if ret.keepLast > 0 then
              insertAll [] (applyKeepLast (filterByName files db) (max (ret.keepLast - p) 0))
            else []), q.2.file.name = q.1 := by
            by_cases h : ret.keepLast > 0
            · rw [if_pos h]
              exact insertAll_inv _ [] (by simp)
            · rw [if_neg h]
              simp
          have h2 : ∀ q ∈ (if ret.keepDays > 0 then
              insertAll
                (if ret.keepLast > 0 then
                  insertAll [] (applyKeepLast (filterByName files db)
                    (max (ret.keepLast - p) 0))
                else [])
                (applyKeepDays (filterByName files db) ret.keepDays now)
            else
              (if ret.keepLast > 0 then
                insertAll [] (applyKeepLast (filterByName files db)
                  (max (ret.keepLast - p) 0))
              else [])), q.2.file.name = q.1 := by
            by_cases h : ret.keepDays > 0
            · rw [if_pos h]
              exact insertAll_inv _ _ h1
            · rw [if_neg h]
              exact h1
          by_cases h : ret.maxSizeMB > 0
          · rw [if_pos h]
            exact insertAll_inv _ _ h2
          · rw [if_neg h]
            exact h2
        rw [namesOf_map_values _ hinv3]
        rw [keysOf_condInsert, keysOf_condInsert, keysOf_condInsert]
        have hbase : keysOf ([] : List (String × BackupFile)) = ∅ := rfl
        rw [hbase]
        rw [Finset.empty_union, Finset.union_assoc]
  · intro h1 h2 h3
    have hkl : ¬ ret.keepLast > 0 := by omega
    have hkd : ¬ ret.keepDays > 0 := by omega
    have hms : ¬ ret.maxSizeMB > 0 := by omega
    simp only [Apply, if_neg hkl, if_neg hkd, if_neg hms]
    by_cases hfe : files.isEmpty
    · rw [if_pos hfe]
    · rw [if_neg hfe]
      by_cases hfil : (filterByName files db).isEmpty
      · rw [if_pos hfil]
      · rw [if_neg hfil]
        rfl

/-- C1 witness: a concrete instantiation with KeepLast and MaxSizeMB
enabled over five files. -/
theorem retention_apply_union_witness :
    namesOf (Apply klFiles "mydb" ⟨3, 0, 1⟩ 0 ⟨2024, 1, 6, 0, 0, 0⟩) =
      (if (3 : Int) > 0 then
          bnamesOf (applyKeepLast (filterByName klFiles "mydb") (max ((3 : Int) - 0) 0))
        else ∅)
      ∪ (if (0 : Int) > 0 then
          bnamesOf (applyKeepDays (filterByName klFiles "mydb") 0 ⟨2024, 1, 6, 0, 0, 0⟩)
        else ∅)
      ∪ (if (1 : Int) > 0 then
          bnamesOf (applyMaxSize (filterByName klFiles "mydb") 1)
        else ∅) :=
  (retention_apply_union klFiles "mydb" ⟨3, 0, 1⟩ 0 ⟨2024, 1, 6, 0, 0, 0⟩).1

/-! ## Claim about the KeepLast rule (C3) -/

lemma applyKeepLast_eq_drop (l : List BackupFile) (e : Int) :
    applyKeepLast l e = l.drop e.toNat := by
  unfold applyKeepLast
  split
  · next h => exact (List.drop_eq_nil_of_le (by omega)).symm
  · rfl

lemma filterByName_sorted (files : List RemoteFile) (db : String) :
    (filterByName files db).Sorted tsGe :=
  List.sorted_insertionSort tsGe (rawFilter files db)

lemma filterByName_perm (files : List RemoteFile) (db : String) :
    (filterByName files db).Perm (rawFilter files db) :=
  List.perm_insertionSort tsGe (rawFilter files db)

lemma rawFilter_names_sublist (files : List RemoteFile) (db : String) :
    List.Sublist ((rawFilter files db).map fun bf => bf.file.name)
      (files.map fun f => f.name) := by
  induction files with
  | nil => simp [rawFilter]
  | cons f t ih =>
    rcases hp : parseFilenameCh f.name.data with _ | p
    · have h : rawFilter (f :: t) db = rawFilter t db := by
        simp [rawFilter, List.filterMap_cons, hp]
      rw [h, List.map_cons]
      exact List.Sublist.cons _ ih
    · obtain ⟨n, ts⟩ := p
      by_cases hq : eqFold n db.data
      · have h : rawFilter (f :: t) db = ⟨f, ts⟩ :: rawFilter t db := by
          simp [rawFilter, List.filterMap_cons, hp, hq]
        rw [h, List.map_cons, List.map_cons]
        exact List.Sublist.cons₂ _ ih
      · have h : rawFilter (f :: t) db = rawFilter t db := by
          simp [rawFilter, List.filterMap_cons, hp, hq]
        rw [h, List.map_cons]
        exact List.Sublist.cons _ ih

/-- C3: with k greater than zero and pendingBackups p at least zero, the
KeepLast rule (as evaluated by Apply, with effective threshold
max(0, k - p)) deletes exactly the files beyond the threshold newest
matching files: it equals dropping the threshold prefix of the
newest-first list, deletes nothing when no more than the threshold many
files match, every spared file is at least as new as every deleted one,
and (for listings without duplicate names) no file among the threshold
newest is ever in the deletion list. -/
theorem keeplast_spares_newest (files : List RemoteFile) (db : String) (k p : Int)
    (hk : 0 < k) (hp : 0 ≤ p) :
    applyKeepLast (filterByName files db) (max (k - p) 0)
        = (filterByName files db).drop (max (k - p) 0).toNat
    ∧ (((filterByName files db).length : Int) ≤ max (k - p) 0 →
        applyKeepLast (filterByName files db) (max (k - p) 0) = [])
    ∧ (∀ f ∈ (filterByName files db).take (max (k - p) 0).toNat,
        ∀ g ∈ (filterByName files db).drop (max (k - p) 0).toNat, g.ts.key ≤ f.ts.key)
    ∧ ((files.map fun f => f.name).Nodup →
        ∀ f ∈ (filterByName files db).take (max (k - p) 0).toNat,
          f ∉ applyKeepLast (filterByName files db) (max (k - p) 0)) := by
  have hsorted := filterByName_sorted files db
  refine ⟨applyKeepLast_eq_drop _ _, ?_, ?_, ?_⟩
  · intro hlen
    unfold applyKeepLast
    rw [if_pos hlen]
  · intro f hf g hg
    have hpw : ((filterByName files db).take (max (k - p) 0).toNat
        ++ (filterByName files db).drop (max (k - p) 0).toNat).Pairwise tsGe := by
      rw [List.take_append_drop]
      exact hsorted
    exact (List.pairwise_append.mp hpw).2.2 f hf g hg
  · intro hnd f hf
    rw [applyKeepLast_eq_drop]
    have h1 : ((rawFilter files db).map fun bf => bf.file.name).Nodup :=
      List.Nodup.sublist (rawFilter_names_sublist files db) hnd
    have h2 : (rawFilter files db).Nodup := List.Nodup.of_map _ h1
    have h3 : (filterByName files db).Nodup := (filterByName_perm files db).nodup_iff.mpr h2
    exact fun hc => List.disjoint_take_drop h3 (le_refl _) hf hc

/-- C3 witness: five files, KeepLast three, no pending backups: the two
oldest are deleted and the three newest spared. -/
theorem keeplast_spares_newest_witness :
    (0 : Int) < 3 ∧ (0 : Int) ≤ 0
    ∧ applyKeepLast (filterByName klFiles "mydb") (max ((3 : Int) - 0) 0)
        = (filterByName klFiles "mydb").drop (max ((3 : Int) - 0) 0).toNat
    ∧ (applyKeepLast (filterByName klFiles "mydb") (max ((3 : Int) - 0) 0)).map
          (fun f => f.file.name)
        = ["mydb_20240102_000000.sql.gz", "mydb_20240101_000000.sql.gz"] :=
  ⟨by decide, by decide,
   (keeplast_spares_newest klFiles "mydb" 3 0 (by decide) (by decide)).1, by decide⟩

/-! ## Claim about metadata and order independence (C9) -/

lemma rawFilter_remap (g : RemoteFile → Nat) (files : List RemoteFile) (db : String) :
    rawFilter (files.map (remap g)) db = (rawFilter files db).map (bremap g) := by
  induction files with
  | nil => rfl
  | cons f t ih =>
    have hname : (remap g f).name = f.name := rfl
    rcases hp : parseFilenameCh f.name.data with _ | p
    · have h1 : rawFilter (remap g f :: t.map (remap g)) db = rawFilter (t.map (remap g)) db := by
        simp [rawFilter, List.filterMap_cons, hname, hp]
      have h2 : rawFilter (f :: t) db = rawFilter t db := by
        simp [rawFilter, List.filterMap_cons, hp]
      rw [List.map_cons, h1, h2] at *
      exact ih
    · obtain ⟨n, ts⟩ := p
      by_cases hq : eqFold n db.data
      · have h1 : rawFilter (remap g f :: t.map (remap g)) db
            = ⟨remap g f, ts⟩ :: rawFilter (t.map (remap g)) db := by
          simp [rawFilter, List.filterMap_cons, hname, hp, hq]
        have h2 : rawFilter (f :: t) db = ⟨f, ts⟩ :: rawFilter t db := by
          simp [rawFilter, List.filterMap_cons, hp, hq]
        rw [List.map_cons, h1, h2, List.map_cons, ih]
        rfl
      · have h1 : rawFilter (remap g f :: t.map (remap g)) db = rawFilter (t.map (remap g)) db := by
          simp [rawFilter, List.filterMap_cons, hname, hp, hq]
        have h2 : rawFilter (f :: t) db = rawFilter t db := by
          simp [rawFilter, List.filterMap_cons, hp, hq]
        rw [List.map_cons, h1, h2, ih]

lemma orderedInsert_bremap (g : RemoteFile → Nat) (a : BackupFile) (l : List BackupFile) :
    List.orderedInsert tsGe (bremap g a) (l.map (bremap g))
      = (List.orderedInsert tsGe a l).map (bremap g) := by
  induction l with
  | nil => rfl
  | cons b t ih =>
    simp only [List.map_cons, List.orderedInsert]
    by_cases h : tsGe a b
    · have hg : tsGe (bremap g a) (bremap g b) := h
      rw [if_pos hg, if_pos h, List.map_cons, List.map_cons]
    · have hg : ¬ tsGe (bremap g a) (bremap g b) := h
      rw [if_neg hg, if_neg h, List.map_cons, ih]

lemma sortTs_bremap (g : RemoteFile → Nat) (l : List BackupFile) :
    sortTs (l.map (bremap g)) = (sortTs l).map (bremap g) := by
  induction l with
  | nil => rfl
  | cons a t ih =>
    show List.orderedInsert tsGe (bremap g a) (sortTs (t.map (bremap g)))
      = (List.orderedInsert tsGe a (sortTs t)).map (bremap g)
    rw [ih, orderedInsert_bremap]

lemma filterByName_remap (g : RemoteFile → Nat) (files : List RemoteFile) (db : String) :
    filterByName (files.map (remap g)) db = (filterByName files db).map (bremap g) := by
  unfold filterByName
  rw [rawFilter_remap, sortTs_bremap]

lemma applyKeepLast_bremap (g : RemoteFile → Nat) (l : List BackupFile) (e : Int) :
    applyKeepLast (l.map (bremap g)) e = (applyKeepLast l e).map (bremap g) := by
  rw [applyKeepLast_eq_drop, applyKeepLast_eq_drop]
  exact Eq.symm (List.map_drop (bremap g) l e.toNat)

lemma applyKeepDays_bremap (g : RemoteFile → Nat) (l : List BackupFile) (kd : Int) (now : DT) :
    applyKeepDays (l.map (bremap g)) kd now = (applyKeepDays l kd now).map (bremap g) := by
  unfold applyKeepDays
  rw [List.filter_map]
  rfl

lemma maxSizeGo_bremap (g : RemoteFile → Nat) (maxB : Int) (l : List BackupFile) (total : Int) :
    maxSizeGo maxB (l.map (bremap g)) total = (maxSizeGo maxB l total).map (bremap g) := by
  induction l generalizing total with
  | nil => rfl
  | cons f t ih =>
    simp only [List.map_cons, maxSizeGo]
    have hsz : (bremap g f).file.size = f.file.size := rfl
    rw [hsz]
    by_cases h : total + f.file.size > maxB
    · rw [if_pos h, if_pos h, List.map_cons, ih]
    · rw [if_neg h, if_neg h, ih]

lemma applyMaxSize_bremap (g : RemoteFile → Nat) (l : List BackupFile) (ms : Int) :
    applyMaxSize (l.map (bremap g)) ms = (applyMaxSize l ms).map (bremap g) := by
  unfold applyMaxSize
  exact maxSizeGo_bremap g _ l 0

lemma insertMap_qremap (g : RemoteFile → Nat) (m : List (String × BackupFile))
    (k : String) (v : BackupFile) :
    insertMap (m.map (qremap g)) k (bremap g v) = (insertMap m k v).map (qremap g) := by
  induction m with
  | nil => rfl
  | cons a r ih =>
    obtain ⟨k0, v0⟩ := a
    by_cases h : k0 = k
    · simp only [List.map_cons, qremap, insertMap, if_pos h, List.map_cons]
    · simp only [List.map_cons, qremap, insertMap, if_neg h, List.map_cons]
      rw [ih]

lemma insertAll_qremap (g : RemoteFile → Nat) (fs : List BackupFile)
    (m : List (String × BackupFile)) :
    insertAll (m.map (qremap g)) (fs.map (bremap g)) = (insertAll m fs).map (qremap g) := by
  induction fs generalizing m with
  | nil => rfl
  | cons f t ih =>
    show insertAll (insertMap (m.map (qremap g)) (bremap g f).file.name (bremap g f))
        (t.map (bremap g)) = _
    have hname : (bremap g f).file.name = f.file.name := rfl
    rw [hname, insertMap_qremap]
    exact ih (insertMap m f.file.name f)

lemma condInsert_qremap (g : RemoteFile → Nat) (c : Prop) [Decidable c]
    (m : List (String × BackupFile)) (fs : List BackupFile) :
    (if c then insertAll (m.map (qremap g)) (fs.map (bremap g)) else m.map (qremap g))
      = (if c then insertAll m fs else m).map (qremap g) := by
  by_cases h : c <;> simp [h, insertAll_qremap]

lemma isEmpty_map {α β : Type} (f : α → β) (l : List α) : (l.map f).isEmpty = l.isEmpty := by
  cases l <;> rfl

lemma Apply_remap (g : RemoteFile → Nat) (files : List RemoteFile) (db : String)
    (ret : Retention) (p : Int) (now : DT) :
    Apply (files.map (remap g)) db ret p now = (Apply files db ret p now).map (remap g) := by
  simp only [Apply]
  rw [isEmpty_map, filterByName_remap, isEmpty_map]
  by_cases hfe : files.isEmpty
  · rw [if_pos hfe, if_pos hfe]
    rfl
  · rw [if_neg hfe, if_neg hfe]
    by_cases hfil : (filterByName files db).isEmpty
    · rw [if_pos hfil, if_pos hfil]
      rfl
    · rw [if_neg hfil, if_neg hfil]
      have e1 : (if ret.keepLast > 0 then
            insertAll [] (applyKeepLast ((filterByName files db).map (bremap g))
              (max (ret.keepLast - p) 0))
          else ([] : List (String × BackupFile)))
          = (if ret.keepLast > 0 then
              insertAll [] (applyKeepLast (filterByName files db) (max (ret.keepLast - p) 0))
            else []).map (qremap g) := by
        by_cases h : ret.keepLast > 0
        · rw [if_pos h, if_pos h, applyKeepLast_bremap]
          exact insertAll_qremap g _ []
        · rw [if_neg h, if_neg h]
          rfl
      rw [e1, applyKeepDays_bremap, condInsert_qremap, applyMaxSize_bremap, condInsert_qremap,
        List.map_map, List.map_map]
      rfl

lemma namesOf_map_remap (g : RemoteFile → Nat) (l : List RemoteFile) :
    namesOf (l.map (remap g)) = namesOf l := by
  simp [namesOf, List.map_map]
  rfl

lemma strictSorted_unique : ∀ l1 l2 : List BackupFile, l1.Perm l2 → l1.Sorted tsGe →
    l2.Sorted tsGe → ((l1.map fun bf => bf.ts.key).Nodup) → l1 = l2 := by
  intro l1
  induction l1 with
  | nil =>
    intro l2 hp _ _ _
    exact ((List.Perm.eq_nil hp.symm)).symm
  | cons a t ih =>
    intro l2 hp hs1 hs2 hnd
    cases l2 with
    | nil => exact absurd (List.Perm.eq_nil hp) (by simp)
    | cons b u =>
      simp only [List.map_cons, List.nodup_cons] at hnd
      obtain ⟨hhead, htail⟩ := hnd
      have hab : a = b := by
        by_contra hne
        have hbmem : b ∈ a :: t := hp.symm.subset (List.mem_cons_self b u)
        have hamem : a ∈ b :: u := hp.subset (List.mem_cons_self a t)
        have hbt : b ∈ t := by
          rcases List.mem_cons.mp hbmem with h | h
          · exact absurd h.symm hne
          · exact h
        have hau : a ∈ u := by
          rcases List.mem_cons.mp hamem with h | h
          · exact absurd h hne
          · exact h
        have h1 : b.ts.key ≤ a.ts.key := (List.pairwise_cons.mp hs1).1 b hbt
        have h2 : a.ts.key ≤ b.ts.key := (List.pairwise_cons.mp hs2).1 a hau
        have hkey : a.ts.key = b.ts.key := le_antisymm h2 h1
        have hmem : b.ts.key ∈ t.map fun bf => bf.ts.key := List.mem_map_of_mem _ hbt
        rw [← hkey] at hmem
        exact hhead hmem
      subst hab
      have htu : t.Perm u := (List.perm_cons a).mp hp
      rw [ih u htu (List.Sorted.of_cons hs1) (List.Sorted.of_cons hs2) htail]

lemma Apply_perm_eq (files1 files2 : List RemoteFile) (db : String) (ret : Retention)
    (p : Int) (now : DT) (hperm : files1.Perm files2)
    (hnd : ((rawFilter files1 db).map fun bf => bf.ts.key).Nodup) :
    Apply files1 db ret p now = Apply files2 db ret p now := by
  have hraw : (rawFilter files1 db).Perm (rawFilter files2 db) := hperm.filterMap _
  have hF : filterByName files1 db = filterByName files2 db := by
    apply strictSorted_unique _ _ ?_ (filterByName_sorted files1 db)
      (filterByName_sorted files2 db) ?_
    · exact (filterByName_perm files1 db).trans
        (hraw.trans (filterByName_perm files2 db).symm)
    · have hm : ((filterByName files1 db).map fun bf => bf.ts.key).Perm
          ((rawFilter files1 db).map fun bf => bf.ts.key) :=
        (filterByName_perm files1 db).map _
      exact hm.nodup_iff.mpr hnd
  have hie : files1.isEmpty = files2.isEmpty := by
    cases files1 with
    | nil =>
      rw [List.Perm.eq_nil hperm.symm]
    | cons f t =>
      cases files2 with
      | nil => exact absurd (List.Perm.eq_nil hperm) (by simp)
      | cons f2 t2 => rfl
  simp only [Apply, hF, hie]

/-- C9 counterexample: with two artifacts of the same database carrying the
same embedded timestamp, swapping the input order changes the deletion set
of Apply (KeepLast 1 keeps whichever file the sort leaves first, and the
sort keeps ties in input order). -/
theorem apply_depends_on_order :
    List.Perm [cxA, cxB] [cxB, cxA]
    ∧ namesOf (Apply [cxA, cxB] "mydb" ⟨1, 0, 0⟩ 0 cxNow)
        ≠ namesOf (Apply [cxB, cxA] "mydb" ⟨1, 0, 0⟩ 0 cxNow) := by
  constructor
  · decide
  · decide

/-- C9 (amended): the deletion set of Apply never depends on the files'
storage modification times; and it is invariant under permutation of the
input listing whenever the matching files' embedded timestamps are
pairwise distinct (with a timestamp tie, the unstable sort makes the
kept file depend on input order). -/
theorem apply_ignores_metadata_and_order (files : List RemoteFile) (db : String)
    (ret : Retention) (p : Int) (now : DT) :
    (∀ g : RemoteFile → Nat,
      namesOf (Apply (files.map fun f => ⟨f.name, f.size, g f⟩) db ret p now)
        = namesOf (Apply files db ret p now))
    ∧ (∀ files2, files.Perm files2 →
        ((rawFilter files db).map fun bf => bf.ts.key).Nodup →
        Apply files db ret p now = Apply files2 db ret p now) := by
  constructor
  · intro g
    have h := Apply_remap g files db ret p now
    rw [show (files.map fun f => ⟨f.name, f.size, g f⟩) = files.map (remap g) from rfl, h,
      namesOf_map_remap]
  · intro files2 hperm hnd
    exact Apply_perm_eq files files2 db ret p now hperm hnd

/-- C9 witness: modification times rewritten to 7 and the reversed listing
give the same deletion set for a five-file listing with distinct
timestamps. -/
theorem apply_ignores_metadata_and_order_witness :
    namesOf (Apply (klFiles.map fun f => ⟨f.name, f.size, 7⟩) "mydb" ⟨3, 0, 0⟩ 0 cxNow)
        = namesOf (Apply klFiles "mydb" ⟨3, 0, 0⟩ 0 cxNow)
    ∧ List.Perm klFiles klFiles.reverse
    ∧ ((rawFilter klFiles "mydb").map fun bf => bf.ts.key).Nodup
    ∧ Apply klFiles "mydb" ⟨3, 0, 0⟩ 0 cxNow
        = Apply klFiles.reverse "mydb" ⟨3, 0, 0⟩ 0 cxNow :=
  ⟨(apply_ignores_metadata_and_order klFiles "mydb" ⟨3, 0, 0⟩ 0 cxNow).1 (fun _ => 7),
   by decide, by decide,
   (apply_ignores_metadata_and_order klFiles "mydb" ⟨3, 0, 0⟩ 0 cxNow).2
     klFiles.reverse (by decide) (by decide)⟩

/-! ## Claim about the filename round trip (C6) -/

lemma digVal_digChar (n : Nat) (h : n < 10) : digVal (digChar n) = n := by
  interval_cases n <;> decide

lemma isDig_digChar (n : Nat) (h : n < 10) : isDig (digChar n) = true := by
  interval_cases n <;> decide

lemma isDig_digChar_mod (n : Nat) : isDig (digChar (n % 10)) = true :=
  isDig_digChar _ (Nat.mod_lt _ (by norm_num))

lemma digChar_ne_underscore (n : Nat) : ¬ digChar n = '_' := by
  unfold digChar
  repeat' split
  all_goals decide

lemma digChar_ne_slash (n : Nat) : ¬ digChar n = '/' := by
  unfold digChar
  repeat' split
  all_goals decide

lemma digChar_ne_newline (n : Nat) : ¬ digChar n = '\n' := by
  unfold digChar
  repeat' split
  all_goals decide

lemma digChar_digVal (c : Char) (h : isDig c = true) : digChar (digVal c) = c := by
  simp only [isDig, Bool.and_eq_true, decide_eq_true_eq] at h
  obtain ⟨h1, h2⟩ := h
  have hofnat := Char.ofNat_toNat c
  obtain ⟨n, hn⟩ : ∃ n, c.toNat = n := ⟨_, rfl⟩
  rw [hn] at h1 h2 hofnat
  have hdv : digVal c = n - 48 := by
    unfold digVal
    rw [hn]
  rw [hdv, ← hofnat]
  interval_cases n <;> decide

lemma splitTs_not_underscore (c : Char) (r : List Char) (h : ¬ c = '_') :
    splitTs (c :: r) = none := by
  unfold splitTs
  split
  · next heq =>
    rw [List.cons.injEq] at heq
    exact absurd heq.1 h
  · rfl

lemma splitTs_mid (c1 c2 c3 c4 c5 c6 : Char) (rest : List Char) :
    splitTs ('_' :: c1 :: c2 :: c3 :: c4 :: c5 :: c6 :: '.' :: rest) = none := by
  unfold splitTs
  split
  · next heq =>
    simp only [List.cons.injEq] at heq
    rcases heq with ⟨-, rfl, rfl, rfl, rfl, rfl, rfl, rfl, hrest⟩
    apply if_neg
    intro hcond
    have h1 := hcond.1
    simp only [List.all_cons, List.all_nil, Bool.and_eq_true] at h1
    exact absurd h1.2.2.2.2.2.2.1 (by decide)
  · rfl

lemma numOf4 (n : Nat) (h : n ≤ 9999) : numOf (pad4 n) = n := by
  have h1 := digVal_digChar (n / 1000 % 10) (Nat.mod_lt _ (by norm_num))
  have h2 := digVal_digChar (n / 100 % 10) (Nat.mod_lt _ (by norm_num))
  have h3 := digVal_digChar (n / 10 % 10) (Nat.mod_lt _ (by norm_num))
  have h4 := digVal_digChar (n % 10) (Nat.mod_lt _ (by norm_num))
  simp only [numOf, pad4, List.foldl_cons, List.foldl_nil, h1, h2, h3, h4]
  omega

lemma numOf2 (n : Nat) (h : n ≤ 99) : numOf (pad2 n) = n := by
  have h1 := digVal_digChar (n / 10 % 10) (Nat.mod_lt _ (by norm_num))
  have h2 := digVal_digChar (n % 10) (Nat.mod_lt _ (by norm_num))
  simp only [numOf, pad2, List.foldl_cons, List.foldl_nil, h1, h2]
  omega

lemma dtValid_fields (t : DT) (h : t.valid = true) :
    t.y ≤ 9999 ∧ 1 ≤ t.mo ∧ t.mo ≤ 12 ∧ 1 ≤ t.d ∧ t.d ≤ 31
      ∧ t.h ≤ 23 ∧ t.mi ≤ 59 ∧ t.s ≤ 59 := by
  simp only [DT.valid, Bool.and_eq_true, decide_eq_true_eq] at h
  have hdm : daysInMonth t.y t.mo ≤ 31 := by
    unfold daysInMonth
    split
    · split <;> omega
    · split <;> omega
  omega

lemma splitTs_format (t : DT) (e : List Char) (hvalid : t.valid = true)
    (he : e ≠ []) (henl : ∀ c ∈ e, c ≠ '\n') :
    splitTs ('_' :: (fmtDT t ++ '.' :: e)) = some (t, e) := by
  obtain ⟨hy, hmo1, hmo2, hd1, hd2, hh, hmi, hs⟩ := dtValid_fields t hvalid
  have hfmt : '_' :: (fmtDT t ++ '.' :: e)
      = '_' :: digChar (t.y / 1000 % 10) :: digChar (t.y / 100 % 10)
        :: digChar (t.y / 10 % 10) :: digChar (t.y % 10)
        :: digChar (t.mo / 10 % 10) :: digChar (t.mo % 10)
        :: digChar (t.d / 10 % 10) :: digChar (t.d % 10)
        :: '_' :: digChar (t.h / 10 % 10) :: digChar (t.h % 10)
        :: digChar (t.mi / 10 % 10) :: digChar (t.mi % 10)
        :: digChar (t.s / 10 % 10) :: digChar (t.s % 10) :: '.' :: e := by
    simp [fmtDT, pad4, pad2]
  rw [hfmt]
  simp only [splitTs]
  rw [if_pos (by
    refine ⟨by simp [isDig_digChar_mod], by simp [isDig_digChar_mod], he, henl⟩)]
  have e1 : numOf [digChar (t.y / 1000 % 10), digChar (t.y / 100 % 10),
      digChar (t.y / 10 % 10), digChar (t.y % 10)] = t.y := numOf4 t.y hy
  have e2 : numOf [digChar (t.mo / 10 % 10), digChar (t.mo % 10)] = t.mo :=
    numOf2 t.mo (by omega)
  have e3 : numOf [digChar (t.d / 10 % 10), digChar (t.d % 10)] = t.d :=
    numOf2 t.d (by omega)
  have e4 : numOf [digChar (t.h / 10 % 10), digChar (t.h % 10)] = t.h :=
    numOf2 t.h (by omega)
  have e5 : numOf [digChar (t.mi / 10 % 10), digChar (t.mi % 10)] = t.mi :=
    numOf2 t.mi (by omega)
  have e6 : numOf [digChar (t.s / 10 % 10), digChar (t.s % 10)] = t.s :=
    numOf2 t.s (by omega)
  rw [e1, e2, e3, e4, e5, e6]

lemma fmtDT_cons (t : DT) (e : List Char) :
    fmtDT t ++ '.' :: e
      = digChar (t.y / 1000 % 10) :: digChar (t.y / 100 % 10)
        :: digChar (t.y / 10 % 10) :: digChar (t.y % 10)
        :: digChar (t.mo / 10 % 10) :: digChar (t.mo % 10)
        :: digChar (t.d / 10 % 10) :: digChar (t.d % 10)
        :: '_' :: digChar (t.h / 10 % 10) :: digChar (t.h % 10)
        :: digChar (t.mi / 10 % 10) :: digChar (t.mi % 10)
        :: digChar (t.s / 10 % 10) :: digChar (t.s % 10) :: '.' :: e := by
  simp [fmtDT, pad4, pad2]

lemma splitTs_dot (rest : List Char) : splitTs ('.' :: rest) = none :=
  splitTs_not_underscore '.' rest (by decide)

lemma splitTs_digChar (n : Nat) (rest : List Char) : splitTs (digChar n :: rest) = none :=
  splitTs_not_underscore _ rest (digChar_ne_underscore n)

lemma findName_none (cs : List Char) (h : tokenFree cs = true) : findName cs = none := by
  induction cs with
  | nil => rfl
  | cons c r ih =>
    simp only [tokenFree, Bool.and_eq_true, Option.isNone_iff_eq_none] at h
    obtain ⟨h1, h2⟩ := h
    simp only [findName, ih h2, h1]
    split <;> rfl

lemma tokenFree_fmt (t : DT) (e : List Char) (htok : tokenFree ('.' :: e) = true) :
    tokenFree (fmtDT t ++ '.' :: e) = true := by
  have he : splitTs e = none ∧ tokenFree e = true := by
    simpa [tokenFree, Option.isNone_iff_eq_none, Bool.and_eq_true] using htok
  rw [fmtDT_cons]
  simp [tokenFree, splitTs_digChar, splitTs_dot, splitTs_mid, he.1, he.2,
    Option.isNone_iff_eq_none]

lemma takeWhile_all {p : Char → Bool} (l : List Char) (h : ∀ x ∈ l, p x = true) :
    l.takeWhile p = l := by
  induction l with
  | nil => rfl
  | cons a r ih =>
    rw [List.takeWhile_cons, h a (List.mem_cons_self a r), if_pos rfl,
      ih fun x hx => h x (List.mem_cons_of_mem _ hx)]

lemma goBase_eq_self (cs : List Char) (hne : cs ≠ []) (h : ∀ c ∈ cs, ¬ c = '/') :
    goBase cs = cs := by
  unfold goBase
  rw [if_neg (by simpa [List.isEmpty_iff] using hne)]
  have hall : ∀ c ∈ cs.reverse, ¬ c = '/' := fun c hc => h c (List.mem_reverse.mp hc)
  have h1 : cs.reverse.dropWhile (fun c => c == '/') = cs.reverse := by
    cases hrev : cs.reverse with
    | nil => rfl
    | cons a r =>
      rw [List.dropWhile_cons]
      have ha : (a == '/') = false := by
        have := hall a (by rw [hrev]; exact List.mem_cons_self a r)
        simpa using this
      rw [ha]
      simp
  rw [h1, List.reverse_reverse]
  rw [if_neg (by simpa [List.isEmpty_iff] using hne)]
  have h2 : cs.reverse.takeWhile (fun c => !(c == '/')) = cs.reverse := by
    apply takeWhile_all
    intro x hx
    simpa using hall x hx
  rw [h2, List.reverse_reverse]

lemma findName_format : ∀ (name : List Char) (t : DT) (e : List Char),
    (∀ c ∈ name, ¬ c = '\n') → t.valid = true → e ≠ [] → (∀ c ∈ e, c ≠ '\n') →
    tokenFree ('.' :: e) = true → name ≠ [] →
    findName (name ++ '_' :: (fmtDT t ++ '.' :: e)) = some (name, t, e) := by
  intro name
  induction name with
  | nil =>
    intro t e _ _ _ _ _ hname
    exact absurd rfl hname
  | cons c rest ih =>
    intro t e hnl hvalid he henl htok _
    have hc : ¬ c = '\n' := hnl c (List.mem_cons_self c rest)
    cases rest with
    | nil =>
      have h1 : findName (fmtDT t ++ '.' :: e) = none :=
        findName_none _ (tokenFree_fmt t e htok)
      have h2 : splitTs (fmtDT t ++ '.' :: e) = none := by
        rw [fmtDT_cons]
        exact splitTs_digChar _ _
      have hfu : findName ('_' :: (fmtDT t ++ '.' :: e)) = none := by
        rw [findName, if_neg (by decide), h1, h2]
      have hsp : splitTs ('_' :: (fmtDT t ++ '.' :: e)) = some (t, e) :=
        splitTs_format t e hvalid he henl
      rw [List.singleton_append, findName, if_neg hc, hfu, hsp]
    | cons c2 r2 =>
      have ihh := ih t e (fun x hx => hnl x (List.mem_cons_of_mem _ hx)) hvalid he henl
        htok (by simp)
      rw [List.cons_append, findName, if_neg hc, ihh]

lemma digVal_lt (c : Char) (h : isDig c = true) : digVal c < 10 := by
  simp only [isDig, Bool.and_eq_true, decide_eq_true_eq] at h
  unfold digVal
  omega

lemma pad4_numOf (a b c d : Char) (ha : isDig a = true) (hb : isDig b = true)
    (hc : isDig c = true) (hd : isDig d = true) :
    pad4 (numOf [a, b, c, d]) = [a, b, c, d] := by
  have hva := digVal_lt a ha
  have hvb := digVal_lt b hb
  have hvc := digVal_lt c hc
  have hvd := digVal_lt d hd
  simp only [numOf, List.foldl_cons, List.foldl_nil, pad4]
  have e1 : (((0 * 10 + digVal a) * 10 + digVal b) * 10 + digVal c) * 10 + digVal d
      = digVal a * 1000 + digVal b * 100 + digVal c * 10 + digVal d := by ring
  rw [e1]
  have f1 : (digVal a * 1000 + digVal b * 100 + digVal c * 10 + digVal d) / 1000 % 10
      = digVal a := by omega
  have f2 : (digVal a * 1000 + digVal b * 100 + digVal c * 10 + digVal d) / 100 % 10
      = digVal b := by omega
  have f3 : (digVal a * 1000 + digVal b * 100 + digVal c * 10 + digVal d) / 10 % 10
      = digVal c := by omega
  have f4 : (digVal a * 1000 + digVal b * 100 + digVal c * 10 + digVal d) % 10
      = digVal d := by omega
  rw [f1, f2, f3, f4, digChar_digVal a ha, digChar_digVal b hb, digChar_digVal c hc,
    digChar_digVal d hd]

lemma pad2_numOf (a b : Char) (ha : isDig a = true) (hb : isDig b = true) :
    pad2 (numOf [a, b]) = [a, b] := by
  have hva := digVal_lt a ha
  have hvb := digVal_lt b hb
  simp only [numOf, List.foldl_cons, List.foldl_nil, pad2]
  have e1 : (0 * 10 + digVal a) * 10 + digVal b = digVal a * 10 + digVal b := by ring
  rw [e1]
  have f1 : (digVal a * 10 + digVal b) / 10 % 10 = digVal a := by omega
  have f2 : (digVal a * 10 + digVal b) % 10 = digVal b := by omega
  rw [f1, f2, digChar_digVal a ha, digChar_digVal b hb]

lemma splitTs_sound (r : List Char) (t : DT) (ext : List Char)
    (h : splitTs r = some (t, ext)) :
    ext ≠ [] ∧ r = '_' :: (fmtDT t ++ '.' :: ext) := by
  unfold splitTs at h
  split at h
  · split at h
    · next hcond =>
      simp only [Option.some.injEq, Prod.mk.injEq] at h
      obtain ⟨ht, hext⟩ := h
      obtain ⟨hall8, hall6, hene, -⟩ := hcond
      simp only [List.all_cons, List.all_nil, Bool.and_eq_true, and_true] at hall8 hall6
      obtain ⟨d1, d2, d3, d4, d5, d6, d7, d8⟩ := hall8
      obtain ⟨g1, g2, g3, g4, g5, g6⟩ := hall6
      subst hext
      refine ⟨hene, ?_⟩
      rw [← ht]
      rw [fmtDT_cons]
      simp only [DT.y, DT.mo, DT.d, DT.h, DT.mi, DT.s]
      have p1 := pad4_numOf _ _ _ _ d1 d2 d3 d4
      have p2 := pad2_numOf _ _ d5 d6
      have p3 := pad2_numOf _ _ d7 d8
      have p4 := pad2_numOf _ _ g1 g2
      have p5 := pad2_numOf _ _ g3 g4
      have p6 := pad2_numOf _ _ g5 g6
      simp only [pad4, pad2] at p1 p2 p3 p4 p5 p6
      simp only [List.cons.injEq] at p1 p2 p3 p4 p5 p6
      simp only [List.cons.injEq, true_and]
      exact ⟨p1.1.symm, p1.2.1.symm, p1.2.2.1.symm, p1.2.2.2.1.symm, p2.1.symm,
        p2.2.1.symm, p3.1.symm, p3.2.1.symm, p4.1.symm, p4.2.1.symm, p5.1.symm,
        p5.2.1.symm, p6.1.symm, p6.2.1.symm, trivial⟩
    · exact absurd h (by simp)
  · exact absurd h (by simp)

lemma findName_decomp : ∀ (cs pre : List Char) (t : DT) (ext : List Char),
    findName cs = some (pre, t, ext) →
    pre ≠ [] ∧ ∃ rest, cs = pre ++ rest ∧ splitTs rest = some (t, ext) := by
  intro cs
  induction cs with
  | nil =>
    intro pre t ext h
    simp [findName] at h
  | cons c r ih =>
    intro pre t ext h
    rw [findName] at h
    by_cases hc : c = '\n'
    · rw [if_pos hc] at h
      exact absurd h (by simp)
    · rw [if_neg hc] at h
      cases hf : findName r with
      | some val =>
        obtain ⟨p2, t2, e2⟩ := val
        rw [hf] at h
        simp only [Option.some.injEq, Prod.mk.injEq] at h
        obtain ⟨hpre, ht, hext⟩ := h
        obtain ⟨hp2, rest, hr, hsp⟩ := ih p2 t2 e2 hf
        subst ht
        subst hext
        refine ⟨by rw [← hpre]; simp, rest, ?_, hsp⟩
        rw [← hpre, hr]
        rfl
      | none =>
        rw [hf] at h
        cases hs : splitTs r with
        | none =>
          rw [hs] at h
          exact absurd h (by simp)
        | some v =>
          obtain ⟨t2, e2⟩ := v
          rw [hs] at h
          simp only [Option.some.injEq, Prod.mk.injEq] at h
          obtain ⟨hpre, ht, hext⟩ := h
          subst ht
          subst hext
          exact ⟨by rw [← hpre]; simp, r, by rw [← hpre]; rfl, hs⟩

lemma parseFilenameCh_sound (s pr : List Char) (t2 : DT)
    (h : parseFilenameCh s = some (pr, t2)) :
    t2.valid = true ∧ pr ≠ [] ∧ ∃ e2, e2 ≠ []
      ∧ goBase s = pr ++ '_' :: (fmtDT t2 ++ '.' :: e2) := by
  unfold parseFilenameCh at h
  cases hf : findName (goBase s) with
  | none =>
    rw [hf] at h
    exact absurd h (by simp)
  | some val =>
    obtain ⟨pre, tt, ext⟩ := val
    rw [hf] at h
    have h2 : (if tt.valid = true then some (pre, tt) else none) = some (pr, t2) := h
    by_cases hv : tt.valid = true
    · rw [if_pos hv] at h2
      simp only [Option.some.injEq, Prod.mk.injEq] at h2
      obtain ⟨hpre, ht⟩ := h2
      subst ht
      obtain ⟨hne, rest, hdec, hsp⟩ := findName_decomp _ _ _ _ hf
      obtain ⟨hene, hshape⟩ := splitTs_sound rest tt ext hsp
      subst hpre
      exact ⟨hv, hne, ext, hene, by rw [hdec, hshape]⟩
    · rw [if_neg hv] at h2
      exact absurd h2 (by simp)

lemma validNameChar_safe (c : Char) (h : validNameChar c = true) :
    ¬ c = '/' ∧ ¬ c = '\n' :=
  ⟨fun heq => by rw [heq] at h; exact absurd h (by decide),
   fun heq => by rw [heq] at h; exact absurd h (by decide)⟩

lemma full_no_slash (name : List Char) (t : DT) (e : List Char)
    (hsafe : ∀ c ∈ name, ¬ c = '/') (hesafe : ∀ c ∈ e, ¬ c = '/') :
    ∀ c ∈ name ++ '_' :: (fmtDT t ++ '.' :: e), ¬ c = '/' := by
  intro c hcmem
  rcases List.mem_append.mp hcmem with hn | hr
  · exact hsafe c hn
  · rcases List.mem_cons.mp hr with rfl | hr2
    · decide
    · rw [fmtDT_cons] at hr2
      simp only [List.mem_cons] at hr2
      rcases hr2 with rfl | rfl | rfl | rfl | rfl | rfl | rfl | rfl | rfl | rfl | rfl
        | rfl | rfl | rfl | rfl | rfl | hmem
      all_goals first
        | exact digChar_ne_slash _
        | decide
        | exact hesafe _ hmem

/-- C6 (amended): a backup filename generated by backup.Run parses back to
exactly its database name and timestamp, provided the name is accepted by
config.Validate (validNamePattern) and the artifact extension (the dot,
the original extension and the compression extension) is slash- and
newline-free and contains no embedded timestamp token of its own — true of
every standard extension, but violated for example by a file database whose
path extension embeds such a token (see the counterexample); and every
successfully parsed filename conforms to the naming convention: its base is
name, underscore, the formatted timestamp, a dot and a nonempty extension,
with an in-range timestamp, while every non-conforming filename parses to
none and never to an error. -/
theorem filename_roundtrip (name : String) (t : DT) (dtype path compression : String)
    (e : List Char)
    (hvalid : t.valid = true)
    (hvn : validName name = true)
    (hext : runExt dtype path ++ compExtOf compression = '.' :: e)
    (he : e ≠ [])
    (hesafe : ∀ c ∈ e, ¬ c = '/' ∧ ¬ c = '\n')
    (htok : tokenFree ('.' :: e) = true) :
    parseFilenameCh (runFilename name t dtype path compression) = some (name.data, t)
    ∧ ∀ (s pr : List Char) (t2 : DT), parseFilenameCh s = some (pr, t2) →
        t2.valid = true ∧ pr ≠ [] ∧ ∃ e2, e2 ≠ []
          ∧ goBase s = pr ++ '_' :: (fmtDT t2 ++ '.' :: e2) := by
  have hvn2 : name.data ≠ [] ∧ ∀ c ∈ name.data, validNameChar c = true := by
    simp only [validName, Bool.and_eq_true, Bool.not_eq_true', List.all_eq_true] at hvn
    obtain ⟨h1, h2⟩ := hvn
    refine ⟨fun hnil => ?_, h2⟩
    rw [hnil] at h1
    exact absurd h1 (by decide)
  have hname : name.data ≠ [] := hvn2.1
  have hsafe : ∀ c ∈ name.data, ¬ c = '/' ∧ ¬ c = '\n' :=
    fun c hc => validNameChar_safe c (hvn2.2 c hc)
  constructor
  · have hrun : runFilename name t dtype path compression
        = name.data ++ '_' :: (fmtDT t ++ '.' :: e) := by
      unfold runFilename
      rw [List.append_assoc, hext]
      simp only [List.cons_append, List.append_assoc]
    rw [hrun]
    unfold parseFilenameCh
    rw [goBase_eq_self _ (by simp [hname])
      (full_no_slash name.data t e (fun c hc => (hsafe c hc).1) (fun c hc => (hesafe c hc).1))]
    rw [findName_format name.data t e (fun c hc => (hsafe c hc).2) hvalid he
      (fun c hc => (hesafe c hc).2) htok hname]
    show (if t.valid = true then some (name.data, t) else none) = some (name.data, t)
    rw [if_pos hvalid]
  · intro s pr t2 hp
    exact parseFilenameCh_sound s pr t2 hp

/-- C6 counterexample: with a validated file database whose path extension
embeds a timestamp token, the filename backup.Run generates parses back to
a different name and timestamp, so the round trip of the claim fails as
stated. -/
theorem filename_roundtrip_cx :
    validateDB "mydb" cxDb = none
    ∧ parseFilenameCh (runFilename "mydb" ⟨2024, 1, 15, 14, 30, 22⟩ cxDb.dtype cxDb.path
        cxDb.compression)
      = some ("mydb_20240115_143022.x".data, ⟨2023, 1, 1, 0, 0, 0⟩)
    ∧ parseFilenameCh (runFilename "mydb" ⟨2024, 1, 15, 14, 30, 22⟩ cxDb.dtype cxDb.path
        cxDb.compression)
      ≠ some ("mydb".data, ⟨2024, 1, 15, 14, 30, 22⟩) := by
  refine ⟨by decide, by decide, by decide⟩

/-- C6 witness: the round trip at a mysql database with gz compression. -/
theorem filename_roundtrip_witness :
    (⟨2024, 1, 15, 14, 30, 22⟩ : DT).valid = true
    ∧ validName "mydb" = true
    ∧ runExt "mysql" "" ++ compExtOf "gz" = '.' :: "sql.gz".data
    ∧ "sql.gz".data ≠ []
    ∧ tokenFree ('.' :: "sql.gz".data) = true
    ∧ parseFilenameCh (runFilename "mydb" ⟨2024, 1, 15, 14, 30, 22⟩ "mysql" "" "gz")
        = some (("mydb" : String).data, ⟨2024, 1, 15, 14, 30, 22⟩) :=
  ⟨by decide, by decide, by decide, by decide, by decide,
   (filename_roundtrip "mydb" ⟨2024, 1, 15, 14, 30, 22⟩ "mysql" "" "gz" "sql.gz".data
     (by decide) (by decide) (by decide) (by decide) (by decide) (by decide)).1⟩

/-- C2 witness: the ordering predicate holds on a concrete all-success
pipeline run that deletes two retained-over files. -/
theorem deletes_only_after_upload_witness :
    delsAfterUpload false (runSingleBackup envW ⟨false, false⟩ "mydb" ⟨3, 0, 0⟩) = true :=
  deletes_only_after_upload envW ⟨false, false⟩ "mydb" ⟨3, 0, 0⟩

/-- C4 witness: the event-order properties at a concrete all-success
pipeline run. -/
theorem pipeline_event_order_witness :
    (progressEvents (runSingleBackup envW ⟨false, false⟩ "mydb" ⟨3, 0, 0⟩)).Pairwise
        (fun a b => stepIdx a.step ≤ stepIdx b.step)
    ∧ progressEvents (runSingleBackup envW ⟨false, false⟩ "mydb" ⟨3, 0, 0⟩) ≠ []
    ∧ (∀ x ∈ (progressEvents (runSingleBackup envW ⟨false, false⟩ "mydb" ⟨3, 0, 0⟩)).dropLast,
        x.done = false ∧ x.error = none)
    ∧ (∀ e ∈ (progressEvents (runSingleBackup envW ⟨false, false⟩ "mydb" ⟨3, 0, 0⟩)).getLast?,
        e.done = true)
    ∧ ((∀ e ∈ progressEvents (runSingleBackup envW ⟨false, false⟩ "mydb" ⟨3, 0, 0⟩),
        e.error = none) →
        squeeze ((progressEvents (runSingleBackup envW ⟨false, false⟩ "mydb" ⟨3, 0, 0⟩)).map
            fun e => e.step)
          = [.dumping, .uploading, .retention]) :=
  pipeline_event_order envW ⟨false, false⟩ "mydb" ⟨3, 0, 0⟩

end Blobber
